import Mathlib

/-!
Shallow embedding of `src/advanced_analyzer.py` (class `AdvancedTextAnalyzer`),
the scoring and classification engine of the Ai-analyzer repository.

Text is modelled as `List Char`.  All texts and lexicon entries of the
analyzer are ASCII plus Cyrillic, so the embedded character predicates
(`pyLower` for `str.lower`, `pyIsSpace` for the whitespace class used by
`str.split` / `str.strip` / the regex class `\s`, `isWordChar` for the
regex class `\w`) cover the ASCII and Cyrillic ranges; characters outside
those ranges pass through unchanged, exactly as in CPython for these
ranges.  Python float arithmetic is modelled exactly over `ℚ`, and
`round(x, 1)` is modelled as rounding to the nearest tenth.
-/

namespace AiAnalyzer

/-- Python `str.lower`, on the ASCII and Cyrillic letter ranges: `A`-`Z`
and `А`-`Я` (U+0410..U+042F) shift by 0x20 to their lowercase forms, and
`Ё` (U+0401) maps to `ё` (U+0451). -/
def pyLower (c : Char) : Char :=
  if ('A' ≤ c && c ≤ 'Z') || (0x410 ≤ c.toNat && c.toNat ≤ 0x42F) then
    Char.ofNat (c.toNat + 0x20)
  else if c.toNat == 0x401 then Char.ofNat 0x451
  else c

/-- The whitespace characters of Python `str.split()` / `str.strip()` and of
the regex class `\s` (ASCII part): space, tab, newline, carriage return,
vertical tab, form feed. -/
def pyIsSpace (c : Char) : Bool :=
  c == ' ' || c == '\t' || c == '\n' || c == '\r' || c == '\x0b' || c == '\x0c'

/-- Python substring test `needle in hay` on strings. -/
def occurs (needle : List Char) : List Char → Bool
  | [] => needle.isEmpty
  | c :: cs => needle.isPrefixOf (c :: cs) || occurs needle cs

/-- Helper for `countOcc`: non-overlapping occurrence count of a non-empty
pattern, scanning left to right (the semantics of Python `str.count`).
The first argument is recursion fuel; the caller passes the text length,
which always suffices because every step consumes at least one
character. -/
def countOccPos (needle : List Char) : Nat → List Char → Nat
  | _, [] => 0
  | 0, _ => 0
  | fuel + 1, c :: cs =>
    if needle.isPrefixOf (c :: cs) then
      1 + countOccPos needle fuel (cs.drop (needle.length - 1))
    else countOccPos needle fuel cs

/-- Python `hay.count(needle)`: number of non-overlapping occurrences,
scanning left to right; an empty pattern is counted `len(hay) + 1` times. -/
def countOcc (needle hay : List Char) : Nat :=
  if needle.isEmpty then hay.length + 1 else countOccPos needle hay.length hay

/-- Python `text.split('.')`: parts between literal periods, empty parts
kept; the result is never the empty list. -/
def splitDot : List Char → List (List Char)
  | [] => [[]]
  | c :: cs =>
    if c = '.' then [] :: splitDot cs
    else
      match splitDot cs with
      | [] => [[c]]
      | p :: ps => (c :: p) :: ps

/-- Fuel-based helper for `pySplit`; the caller passes the text length,
which always suffices because every step consumes at least one
character. -/
def pySplitF : Nat → List Char → List (List Char)
  | _, [] => []
  | 0, _ => []
  | fuel + 1, c :: cs =>
    if pyIsSpace c then pySplitF fuel cs
    else (c :: cs.takeWhile (fun d => !pyIsSpace d)) ::
      pySplitF fuel (cs.dropWhile (fun d => !pyIsSpace d))

/-- Python `text.split()` (no separator): maximal runs of non-whitespace,
with no empty parts. -/
def pySplit (l : List Char) : List (List Char) :=
  pySplitF l.length l

/-- Python `s.strip()`: remove leading and trailing whitespace. -/
def pyStrip (s : List Char) : List Char :=
  ((s.dropWhile pyIsSpace).reverse.dropWhile pyIsSpace).reverse

/-- One attempted match of the regex fragment following a consumed newline
in the bullet patterns used by the analyzer (the regexes are
`\n\s*[-*]\s` and `\n\s*[-*•]\s`, with `bullets` the set of marker
characters).  Given the characters after the newline, consume `\s*`
greedily, then require a marker character and one following whitespace
character; return the remainder after the match, or `none` when the match
fails.  The greedy `\s*` never needs backtracking here because marker
characters are not whitespace. -/
def bulletMatchAt (bullets : List Char) (cs : List Char) : Option (List Char) :=
  match cs.dropWhile pyIsSpace with
  | [] => none
  | b :: rest =>
    if bullets.contains b then
      match rest with
      | [] => none
      | d :: rest2 => if pyIsSpace d then some rest2 else none
    else none

theorem bulletMatchAt_length {bullets cs rest} :
    bulletMatchAt bullets cs = some rest → rest.length ≤ cs.length := by
  unfold bulletMatchAt
  intro h
  rcases hd : cs.dropWhile pyIsSpace with _ | ⟨b, r⟩
  · rw [hd] at h
    cases h
  · rw [hd] at h
    have hsub : (b :: r).length ≤ cs.length := by
      have := (List.dropWhile_suffix (l := cs) (p := pyIsSpace)).length_le
      rw [hd] at this
      exact this
    by_cases hb : bullets.contains b
    · simp only [hb, if_true] at h
      rcases r with _ | ⟨d, r2⟩
      · cases h
      · by_cases hsp : pyIsSpace d
        · simp only [hsp, if_true, Option.some.injEq] at h
          subst h
          simp only [List.length_cons] at hsub
          omega
        · simp only [hsp, if_false] at h
          cases h
    · simp only [hb, if_false] at h
      cases h

/-- Fuel-based helper for `bulletCount`; the caller passes the text
length, which always suffices because every step consumes at least one
character (`bulletMatchAt_length` bounds the consumed remainder). -/
def bulletCountF (bullets : List Char) : Nat → List Char → Nat
  | _, [] => 0
  | 0, _ => 0
  | fuel + 1, c :: cs =>
    if c = '\n' then
      match bulletMatchAt bullets cs with
      | some rest => 1 + bulletCountF bullets fuel rest
      | none => bulletCountF bullets fuel cs
    else bulletCountF bullets fuel cs

/-- Python `len(re.findall(pattern, text))` for the bullet patterns
`\n\s*[-*]\s` (learning-style structure bonus) and `\n\s*[-*•]\s`
(engagement list bonus): non-overlapping left-to-right matches, each
starting at a literal newline. -/
def bulletCount (bullets : List Char) (l : List Char) : Nat :=
  bulletCountF bullets l.length l

/-- The character class `[а-яa-z]` of the keyword tokenizer regex
(Cyrillic `а`..`я` is U+0430..U+044F, which excludes `ё`). -/
def isClassChar (c : Char) : Bool :=
  ('a' ≤ c && c ≤ 'z') || (0x430 ≤ c.toNat && c.toNat ≤ 0x44F)

/-- The regex word class `\w` deciding `\b` boundaries, on the character
ranges the analyzer works with: ASCII letters and digits, underscore, and
Cyrillic letters including `ё`/`Ё`. -/
def isWordChar (c : Char) : Bool :=
  isClassChar c || ('A' ≤ c && c ≤ 'Z') || ('0' ≤ c && c ≤ '9') || c == '_' ||
    (0x410 ≤ c.toNat && c.toNat ≤ 0x42F) || c.toNat == 0x401 || c.toNat == 0x451

/-- Scanner for `re.findall(r'\b[а-яa-z]+\b', s)`: every match is a maximal
run of `[а-яa-z]` characters whose neighbours (tracked on the left by
`prevWord`, the word-character status of the previously scanned character)
are not word characters.  The first argument is recursion fuel; the caller
passes the text length, which always suffices because every step consumes
at least one character. -/
def tokensAux : Nat → Bool → List Char → List (List Char)
  | _, _, [] => []
  | 0, _, _ => []
  | fuel + 1, prevWord, c :: cs =>
    if isClassChar c then
      (if !prevWord &&
          (match (cs.dropWhile isClassChar).head? with
           | none => true
           | some n => !isWordChar n) then
        [c :: cs.takeWhile isClassChar]
      else []) ++ tokensAux fuel true (cs.dropWhile isClassChar)
    else
      tokensAux fuel (isWordChar c) cs

/-- `re.findall(r'\b[а-яa-z]+\b', s)`. -/
def findallWords (s : List Char) : List (List Char) :=
  tokensAux s.length false s

/-- The distinct elements of a list in order of first occurrence — the key
order of a Python `Counter`/`dict` built by scanning the list. -/
def firstSeenAux [DecidableEq α] (seen : List α) : List α → List α
  | [] => []
  | a :: l =>
    if a ∈ seen then firstSeenAux seen l
    else a :: firstSeenAux (a :: seen) l

def firstSeen [DecidableEq α] (l : List α) : List α :=
  firstSeenAux [] l

/-- `scores[k] += v` on a Python `defaultdict(int)` modelled as an
association list in key-insertion order: add `v` to the entry of `k`, or
append a fresh entry `(k, v)` at the end. -/
def bump (m : List (List Char × Nat)) (k : List Char) (v : Nat) :
    List (List Char × Nat) :=
  match m with
  | [] => [(k, v)]
  | (k', v') :: rest =>
    if k' = k then (k', v' + v) :: rest else (k', v') :: bump rest k v

/-- Python `max(xs, key=f)`: the first element attaining the maximum of
`f`, or `none` on an empty list. -/
def argmaxFirst (f : α → Nat) : List α → Option α
  | [] => none
  | x :: xs =>
    match argmaxFirst f xs with
    | none => some x
    | some y => if f x < f y then some y else some x

/-! ### Lexicons and string constants of `AdvancedTextAnalyzer.__init__` -/

/-- `self.subject_keywords`: the subject lexicon, in dict insertion order. -/
def subjectLexicon : List (List Char × List (List Char)) :=
  [("программирование".toList,
      (["код", "функция", "переменная", "класс", "объект", "алгоритм",
        "программа"]).map String.toList),
   ("математика".toList,
      (["уравнение", "формула", "теорема", "доказательство", "функция",
        "производная"]).map String.toList),
   ("физика".toList,
      (["энергия", "сила", "скорость", "движение", "температура",
        "волна"]).map String.toList),
   ("химия".toList,
      (["реакция", "элемент", "молекула", "атом", "соединение",
        "вещество"]).map String.toList),
   ("биология".toList,
      (["клетка", "организм", "эволюция", "ген", "белок",
        "ткань"]).map String.toList),
   ("история".toList,
      (["война", "революция", "империя", "государство", "культура",
        "событие"]).map String.toList),
   ("языки".toList,
      (["грамматика", "слово", "предложение", "глагол", "существительное",
        "текст"]).map String.toList)]

/-- The sentinel subject `'общий'` returned when no subject keyword
matches. -/
def strGeneral : List Char :=
  ("общий").toList

def strVisual : List Char :=
  ("визуальный").toList

def strAuditory : List Char :=
  ("аудиальный").toList

def strPractical : List Char :=
  ("практический").toList

def visualKeywords : List (List Char) :=
  (["диаграмма", "схема", "график", "таблица", "рисунок",
    "изображение"]).map String.toList

def auditoryKeywords : List (List Char) :=
  (["объяснение", "лекция", "дискуссия", "обсуждение",
    "диалог"]).map String.toList

def practicalKeywords : List (List Char) :=
  (["упражнение", "практика", "задача", "проект", "эксперимент",
    "применение"]).map String.toList

/-- `self.learning_styles`: the learning-style lexicon, in dict insertion
order. -/
def styleLexicon : List (List Char × List (List Char)) :=
  [(strVisual, visualKeywords),
   (strAuditory, auditoryKeywords),
   (strPractical, practicalKeywords)]

/-- The zero-signal fallback of `suggest_learning_style`. -/
def defaultStyles : List (List Char) :=
  [strPractical, strVisual, strAuditory]

/-- The `engaging_words` list of `calculate_engagement_score`. -/
def engagingWords : List (List Char) :=
  (["интересно", "важно", "удивительно", "представьте", "давайте",
    "почему", "как"]).map String.toList

/-- The `stop_words` set of `analyze_comprehensive`. -/
def stopWords : List (List Char) :=
  (["это", "как", "что", "для", "или", "который", "the", "is", "and",
    "or"]).map String.toList

/-- The `advanced_keywords` list of `identify_prerequisites`. -/
def advancedKeywords : List (List Char) :=
  (["продвинутый", "сложный", "advanced", "комплексный",
    "интегрированный"]).map String.toList

/-- The `prerequisites_map` of `identify_prerequisites`. -/
def prerequisitesMap : List (List Char × List (List Char)) :=
  [("программирование".toList,
      (["Базовая компьютерная грамотность", "Логическое мышление",
        "Английский язык (базовый)"]).map String.toList),
   ("математика".toList,
      (["Арифметика", "Базовая алгебра",
        "Логическое мышление"]).map String.toList),
   ("физика".toList,
      (["Математика (алгебра)",
        "Базовые понятия о природе"]).map String.toList),
   ("химия".toList,
      (["Математика", "Базовые понятия о веществах"]).map String.toList),
   ("биология".toList,
      (["Общие знания о живых организмах"]).map String.toList),
   ("история".toList,
      (["Хронологическое мышление", "География (базовая)"]).map String.toList),
   ("языки".toList,
      (["Родной язык (хорошее знание)",
        "Базовая грамматика"]).map String.toList)]

/-! ### The analyzer operations -/

/-- The total a subject (or style) accumulates in `detect_subject`: the
sum over its keywords of the occurrence counts in the lowercased text
(keywords that do not occur contribute `0`). -/
def subjectScore (tl : List Char) (kws : List (List Char)) : Nat :=
  (kws.map (fun k => countOcc k tl)).sum

/-- `AdvancedTextAnalyzer.detect_subject`: accumulate
`scores[subject] += text_lower.count(keyword)` for every occurring keyword
into a `defaultdict(int)` (an insertion-ordered association list), then
`max(scores, key=scores.get)`, or `'общий'` when no keyword occurred. -/
def detect_subject (text : List Char) : List Char :=
  let tl := text.map pyLower
  let scores := subjectLexicon.foldl
    (fun m p => p.2.foldl
      (fun m k => if occurs k tl then bump m p.1 (countOcc k tl) else m) m) []
  match argmaxFirst (fun q => q.2) scores with
  | none => strGeneral
  | some q => q.1

/-- The structural code-marker test of `suggest_learning_style`:
`text.count('```') > 0 or text.count('def ') > 0`. -/
def codeMarkerCond (text : List Char) : Bool :=
  decide (0 < countOcc (("```").toList) text) ||
    decide (0 < countOcc (("def ").toList) text)

/-- The structural bullet-list test of `suggest_learning_style`:
`len(re.findall(r'\n\s*[-*]\s', text)) > 3`. -/
def styleBulletCond (text : List Char) : Bool :=
  decide (3 < bulletCount (['-', '*']) text)

/-- The score dictionary built by `suggest_learning_style`: `+1` per
occurring style keyword, then `+5` to `'практический'` on the code-marker
test and `+3` to `'визуальный'` on the bullet-list test, as an
insertion-ordered association list. -/
def styleScores (text : List Char) : List (List Char × Nat) :=
  let tl := text.map pyLower
  let m0 := styleLexicon.foldl
    (fun m p => p.2.foldl (fun m k => if occurs k tl then bump m p.1 1 else m) m) []
  let m1 := if codeMarkerCond text then bump m0 strPractical 5 else m0
  if styleBulletCond text then bump m1 strVisual 3 else m1

/-- The comparison used to model Python
`sorted(items, key=lambda x: x[1], reverse=True)` on enumerated entries:
a stable descending sort by score, i.e. the unique ordering by score
descending with ties broken by original position ascending. -/
def styleRel (a b : Nat × (List Char × Nat)) : Prop :=
  b.2.2 < a.2.2 ∨ (a.2.2 = b.2.2 ∧ a.1 ≤ b.1)

instance : DecidableRel styleRel := fun _ _ => by
  unfold styleRel
  exact inferInstance

/-- `sorted(scores.items(), key=lambda x: x[1], reverse=True)`. -/
def sortedStyles (m : List (List Char × Nat)) : List (List Char × Nat) :=
  ((m.enum).insertionSort styleRel).map (fun p => p.2)

/-- `AdvancedTextAnalyzer.suggest_learning_style`: the names of the first
two entries of the stably descending-sorted score dictionary, or the fixed
three-style default when the dictionary is empty. -/
def suggest_learning_style (text : List Char) : List (List Char) :=
  let suggested := sortedStyles (styleScores text)
  if suggested.isEmpty then defaultStyles
  else (suggested.take 2).map (fun p => p.1)

/-- Python `round(x, 1)`: round to the nearest tenth (Python uses
round-half-to-even on binary floats; the analyzer's claims do not depend
on the tie direction, and ties are modelled here as rounding up). -/
def round1 (q : ℚ) : ℚ :=
  ((⌊q * 10 + 1 / 2⌋ : ℤ) : ℚ) / 10

/-- The sentence list of `calculate_readability` (and of the basic
statistics of `analyze_comprehensive`):
`[s for s in text.split('.') if s.strip()]`. -/
def readabilitySentences (text : List Char) : List (List Char) :=
  (splitDot text).filter (fun s => !(pyStrip s).isEmpty)

/-- `AdvancedTextAnalyzer.calculate_readability`: the simplified Flesch
readability formula over exact rationals, defaulting to `50` when the
sentence or word list is empty, clamped to `[0, 100]` and rounded to one
decimal place. -/
def calculate_readability (text : List Char) : ℚ :=
  let sentences := readabilitySentences text
  let words := pySplit text
  if sentences.isEmpty || words.isEmpty then 50
  else
    let avg_sentence_length : ℚ := (words.length : ℚ) / (sentences.length : ℚ)
    let avg_word_length : ℚ :=
      (((words.map List.length).sum : ℕ) : ℚ) / (words.length : ℚ)
    let readability : ℚ :=
      206835 / 1000 - 1015 / 1000 * avg_sentence_length -
        846 / 10 * (avg_word_length / 5)
    round1 (max 0 (min 100 readability))

structure Flashcard where
  front : List Char
  back : List Char
  keyword : List Char
deriving DecidableEq

/-- The sentence list of `generate_flashcards`:
`[s.strip() for s in text.split('.') if s.strip()]`. -/
def flashcardSentences (text : List Char) : List (List Char) :=
  ((splitDot text).map pyStrip).filter (fun s => !s.isEmpty)

/-- `AdvancedTextAnalyzer.generate_flashcards`: for each of the first five
keywords, find the first sentence containing it case-insensitively and
append a card; keywords contained in no sentence are skipped. -/
def generate_flashcards (text : List Char) (keywords : List (List Char)) :
    List Flashcard :=
  let sentences := flashcardSentences text
  (keywords.take 5).foldl (fun acc kw =>
    match sentences.find? (fun s => occurs (kw.map pyLower) (s.map pyLower)) with
    | some s => acc ++ [⟨("Что такое ").toList ++ kw ++ ("?").toList, s, kw⟩]
    | none => acc) []

/-- `AdvancedTextAnalyzer.identify_prerequisites`: the static per-subject
list (with a generic fallback), with an extra intermediate-level item
prepended when an advanced-language marker occurs in the lowercased
text. -/
def identify_prerequisites (text subject : List Char) : List (List Char) :=
  let base := (prerequisitesMap.lookup subject).getD
    ((["Базовая грамотность", "Желание учиться"]).map String.toList)
  let tl := text.map pyLower
  if advancedKeywords.any (fun k => occurs k tl) then
    (("Средний уровень знаний в ").toList ++ subject) :: base
  else base

/-- The `avg_length` of `calculate_engagement_score`:
`sum(len(s.split()) for s in sentences) / len(sentences)` over the raw
period split (empty fragments included in the denominator). -/
def avgWordsPerSentence (text : List Char) : ℚ :=
  ((((splitDot text).map (fun s => (pySplit s).length)).sum : ℕ) : ℚ) /
    (((splitDot text).length : ℕ) : ℚ)

/-- `AdvancedTextAnalyzer.calculate_engagement_score`: base 50, `+2` per
occurring engaging word, `+10` for an example marker, `+3` per `?`, `+2`
per bullet-list match, `-10` when the average words-per-sentence over the
raw period split exceeds 25, clamped to `[0, 100]`. -/
def calculate_engagement_score (text : List Char) : ℤ :=
  let tl := text.map pyLower
  let s1 : ℤ := 50 + 2 * (engagingWords.countP (fun w => occurs w tl) : ℤ)
  let s2 : ℤ :=
    if occurs (("например").toList) tl || occurs (("пример").toList) tl then
      s1 + 10
    else s1
  let s3 : ℤ := s2 + (countOcc (['?']) text : ℤ) * 3
  let s4 : ℤ := s3 + (bulletCount (['-', '*', '•']) text : ℤ) * 2
  let s5 : ℤ :=
    if (splitDot text).isEmpty then s4
    else if 25 < avgWordsPerSentence text then s4 - 10
    else s4
  max 0 (min 100 s5)

structure NotesTemplate where
  title : List Char
  date : List Char
  key_points : List (List Char)
  keywords_to_remember : List (List Char)
  questions_to_answer : List (List Char)
  summary_space : List Char
  reflection : List Char
deriving DecidableEq

/-- `AdvancedTextAnalyzer.generate_study_notes_template`: a fixed-shape
fill-in-the-blank record; only `keywords_to_remember` depends on the
input (the first eight keywords). -/
def generate_study_notes_template (text : List Char)
    (keywords : List (List Char)) : NotesTemplate :=
  { title := ("Конспект по материалу").toList,
    date := ("Дата изучения: __________").toList,
    key_points :=
      (["1. ___________________________________",
        "2. ___________________________________",
        "3. ___________________________________",
        "4. ___________________________________",
        "5. ___________________________________"]).map String.toList,
    keywords_to_remember := keywords.take 8,
    questions_to_answer :=
      (["Q: Какова основная идея?",
        "A: ___________________________________",
        "",
        "Q: Как это применяется на практике?",
        "A: ___________________________________",
        "",
        "Q: С чем это связано?",
        "A: ___________________________________"]).map String.toList,
    summary_space := ("Краткое резюме своими словами:\n").toList ++
      List.replicate 50 '_' ++ List.replicate 5 '\n',
    reflection := ("Что я узнал нового?\n").toList ++
      List.replicate 50 '_' ++ List.replicate 3 '\n' }

/-- The word list of `analyze_comprehensive`:
`re.findall(r'\b[а-яa-z]+\b', text.lower())`. -/
def analyzeWords (text : List Char) : List (List Char) :=
  findallWords (text.map pyLower)

/-- The `filtered_words` of `analyze_comprehensive`: tokens that are not
stop words and are longer than three characters. -/
def filteredWords (text : List Char) : List (List Char) :=
  (analyzeWords text).filter
    (fun w => !(stopWords.contains w) && decide (3 < w.length))

/-- The ordering realising `Counter(ws).most_common`: count descending,
ties broken by first-occurrence position (`ws.indexOf`) ascending.  On the
distinct elements of `ws` this is exactly the stable descending sort by
count of the counter items taken in key-insertion (first-occurrence)
order, which is what `Counter.most_common` produces. -/
def mcRel (ws : List (List Char)) (a b : List Char) : Prop :=
  ws.count b < ws.count a ∨
    (ws.count a = ws.count b ∧ ws.indexOf a ≤ ws.indexOf b)

instance (ws : List (List Char)) : DecidableRel (mcRel ws) := fun _ _ => by
  unfold mcRel
  exact inferInstance

instance (ws : List (List Char)) : IsTotal (List Char) (mcRel ws) := by
  constructor
  intro a b
  unfold mcRel
  omega

instance (ws : List (List Char)) : IsTrans (List Char) (mcRel ws) := by
  constructor
  intro a b c hab hbc
  unfold mcRel at hab hbc ⊢
  omega

/-- The keys of `Counter(ws).most_common(10)`. -/
def mostCommon10 (ws : List (List Char)) : List (List Char) :=
  ((firstSeen ws).insertionSort (mcRel ws)).take 10

/-- The keyword list of `analyze_comprehensive`:
`[word for word, count in Counter(filtered_words).most_common(10)]`. -/
def analyzeKeywords (text : List Char) : List (List Char) :=
  mostCommon10 (filteredWords text)

structure Difficulty where
  level : List Char
  description : List Char
  recommendation : List Char
deriving DecidableEq

/-- `AdvancedTextAnalyzer._interpret_readability`. -/
def interpret_readability (score : ℚ) : Difficulty :=
  if 70 ≤ score then
    ⟨("Лёгкий").toList,
     ("Текст легко читается и понимается").toList,
     ("Подходит для самостоятельного изучения").toList⟩
  else if 50 ≤ score then
    ⟨("Средний").toList,
     ("Требует внимания и концентрации").toList,
     ("Делайте заметки по ходу чтения").toList⟩
  else
    ⟨("Сложный").toList,
     ("Сложный текст, требует глубокого изучения").toList,
     ("Читайте по частям, используйте дополнительные источники").toList⟩

structure BasicStats where
  word_count : Nat
  sentence_count : Nat
  unique_words : Nat
  avg_sentence_length : ℚ
deriving DecidableEq

structure AnalysisReport where
  basic_stats : BasicStats
  subject : List Char
  keywords : List (List Char)
  learning_styles : List (List Char)
  readability_score : ℚ
  engagement_score : ℤ
  prerequisites : List (List Char)
  flashcards : List Flashcard
  notes_template : NotesTemplate
  difficulty_interpretation : Difficulty
deriving DecidableEq

/-- `AdvancedTextAnalyzer.analyze_comprehensive`: the full report. -/
def analyze_comprehensive (text : List Char) : AnalysisReport :=
  let words := analyzeWords text
  let sentences := readabilitySentences text
  let keywords := analyzeKeywords text
  let subject := detect_subject text
  let readability := calculate_readability text
  { basic_stats :=
      { word_count := words.length,
        sentence_count := sentences.length,
        unique_words := (firstSeen words).length,
        avg_sentence_length := (words.length : ℚ) / (max sentences.length 1 : ℚ) },
    subject,
    keywords,
    learning_styles := suggest_learning_style text,
    readability_score := readability,
    engagement_score := calculate_engagement_score text,
    prerequisites := identify_prerequisites text subject,
    flashcards := generate_flashcards text keywords,
    notes_template := generate_study_notes_template text keywords,
    difficulty_interpretation := interpret_readability readability }

/-! ### Specification-side definitions

These definitions follow the wording of the specification claims; the
refinement theorems below compare them with the definitions translated
from the source. -/

/-- C1, from the claim wording: score each subject category by the sum of
substring occurrence counts of its keywords in the lowercased text; return
the category with the maximum total, ties going to the category coming
first in lexicon iteration order; `'общий'` when no keyword occurs. -/
def detectSubjectSpec (text : List Char) : List Char :=
  let tl := text.map pyLower
  if subjectLexicon.all (fun p => subjectScore tl p.2 == 0) then strGeneral
  else
    match argmaxFirst (fun p => subjectScore tl p.2) subjectLexicon with
    | some p => p.1
    | none => strGeneral

/-- C2, from the claim wording: `206.835 − 1.015 × (word_count /
sentence_count) − 84.6 × ((sum of word lengths / word_count) / 5)`,
clamped to `[0, 100]` and then rounded to one decimal place; `50` when
either list is empty. -/
def readabilitySpec (text : List Char) : ℚ :=
  let sentences := readabilitySentences text
  let words := pySplit text
  if sentences.isEmpty || words.isEmpty then 50
  else
    round1 (max 0 (min 100
      (206835 / 1000 - 1015 / 1000 * ((words.length : ℚ) / (sentences.length : ℚ)) -
        846 / 10 * ((((words.map List.length).sum : ℕ) : ℚ) / (words.length : ℚ) / 5))))

/-- C3, from the claim wording: the clamp to `[0, 100]` of 50, plus 2 for
each distinct engaging word occurring in the lowercased text, plus 10 if
an example-trigger substring occurs, plus 3 per `?` character, plus 2 per
bullet-pattern match, minus 10 if the average words-per-sentence (empty
fragments included in the denominator) exceeds 25. -/
def engagementSpec (text : List Char) : ℤ :=
  let tl := text.map pyLower
  max 0 (min 100
    (50 + 2 * (engagingWords.countP (fun w => occurs w tl) : ℤ) +
      (if occurs (("например").toList) tl || occurs (("пример").toList) tl
        then 10 else 0) +
      3 * (text.count '?' : ℤ) +
      2 * (bulletCount (['-', '*', '•']) text : ℤ) -
      (if 25 < avgWordsPerSentence text then 10 else 0)))

/-- C4, from the claim wording: the score of one learning style — 1 per
distinct lexicon keyword present in the lowercased text, plus a bonus of 5
to the practical style on a code marker and a bonus of 3 to the visual
style on more than three bullet-pattern matches. -/
def specStyleScore (text : List Char) (s : List Char) : Nat :=
  let tl := text.map pyLower
  (match styleLexicon.lookup s with
   | some kws => kws.countP (fun k => occurs k tl)
   | none => 0) +
  (if s = strPractical ∧ codeMarkerCond text then 5 else 0) +
  (if s = strVisual ∧ styleBulletCond text then 3 else 0)

/-- C4 (amended), from the corrected wording: the keyword-presence part of
one style's score — 1 per distinct lexicon keyword occurring in the
lowercased text, before any structural bonus. -/
def specKeywordScore (text : List Char) (s : List Char) : Nat :=
  match styleLexicon.lookup s with
  | some kws => kws.countP (fun k => occurs k (text.map pyLower))
  | none => 0

/-- C4 (amended), from the corrected wording: the styles scored by the
keyword pass, in lexicon order — the order in which they first enter the
score dictionary. -/
def specBaseOrder (text : List Char) : List (List Char) :=
  [strVisual, strAuditory, strPractical].filter
    (fun s => decide (0 < specKeywordScore text s))

/-- C4 (amended), from the corrected wording: the score-insertion order
after the code-marker bonus, which appends the practical style when only
that bonus scores it. -/
def specCodeOrder (text : List Char) : List (List Char) :=
  if codeMarkerCond text && !((specBaseOrder text).contains strPractical) then
    specBaseOrder text ++ [strPractical]
  else specBaseOrder text

/-- C4 (amended), from the corrected wording: the full score-insertion
order — keyword-scored styles in lexicon order, then the practical style
when only the code bonus scores it, then the visual style when only the
bullet bonus scores it. -/
def specStyleOrder (text : List Char) : List (List Char) :=
  if styleBulletCond text && !((specCodeOrder text).contains strVisual) then
    specCodeOrder text ++ [strVisual]
  else specCodeOrder text

/-- C4 (amended), from the corrected wording: the ranking of the scored
styles — descending score, ties broken by the order in which the styles
first received a score. -/
def styleOrdRel (text : List Char) (a b : List Char) : Prop :=
  specStyleScore text b < specStyleScore text a ∨
    (specStyleScore text a = specStyleScore text b ∧
      (specStyleOrder text).indexOf a ≤ (specStyleOrder text).indexOf b)

instance (text : List Char) : DecidableRel (styleOrdRel text) := fun _ _ => by
  unfold styleOrdRel
  exact inferInstance

/-- C4 (amended), from the corrected wording: the names of the top two
scored styles, ranked by descending score with ties broken by
score-insertion order, or the fixed three-style default when no style
scores. -/
def suggestSpec (text : List Char) : List (List Char) :=
  if specStyleOrder text = [] then defaultStyles
  else ((specStyleOrder text).insertionSort (styleOrdRel text)).take 2

/-- C5, from the claim wording: a lowercase Cyrillic or Latin letter
(`а`-`я`, `ё`, `a`-`z`). -/
def isLowerLetter (c : Char) : Bool :=
  isClassChar c || c.toNat == 0x451

/-- C5, from the claim wording: `w` is a maximal run of lowercase Cyrillic
or Latin letters of the text `t` — non-empty, all letters, and not
extendable on either side. -/
def IsMaximalLowerRun (t w : List Char) : Prop :=
  w ≠ [] ∧ (∀ c ∈ w, isLowerLetter c = true) ∧
    ∃ pre suf, t = pre ++ w ++ suf ∧
      (∀ c, pre.getLast? = some c → isLowerLetter c = false) ∧
      (∀ c, suf.head? = some c → isLowerLetter c = false)

/-- C8, from the claim wording: one card per keyword among the first five
that occurs case-insensitively in some non-empty period-split sentence,
with the first such sentence as the back. -/
def flashcardsSpec (text : List Char) (keywords : List (List Char)) :
    List Flashcard :=
  (keywords.take 5).filterMap (fun kw =>
    ((flashcardSentences text).find?
        (fun s => occurs (kw.map pyLower) (s.map pyLower))).map
      (fun s => ⟨("Что такое ").toList ++ kw ++ ("?").toList, s, kw⟩))

/-! ### Example texts used by the claims -/

/-- C1's example: the Russian words for function, code and algorithm, five
times each, and no other subject keyword. -/
def exSubjectText : List Char :=
  ("функция функция функция функция функция код код код код код алгоритм алгоритм алгоритм алгоритм алгоритм").toList

/-- C3's example: four `?` characters and no other engagement marker. -/
def exQuestionText : List Char :=
  ("a? b? c? d?").toList

/-- C10's example: more than three bullet lines, no style keyword, no code
marker. -/
def exBulletText : List Char :=
  ("\n- a\n- b\n- c\n- d\n").toList

/-- C4's tie-break example: three practical keywords and four bullet
lines give the practical and visual styles three points each; the
practical style entered the score dictionary first. -/
def exTieText : List Char :=
  ("упражнение практика задача\n- a\n- b\n- c\n- d\n").toList

/-! ### Helper lemmas -/

theorem splitDot_ne_nil (text : List Char) : splitDot text ≠ [] := by
  induction text with
  | nil => simp [splitDot]
  | cons c cs ih =>
    unfold splitDot
    by_cases hc : c = '.'
    · simp [hc]
    · simp only [hc, if_false]
      rcases h : splitDot cs with _ | ⟨p, ps⟩
      · simp
      · simp

theorem countOccPos_singleton (c : Char) :
    ∀ (fuel : Nat) (l : List Char), l.length ≤ fuel →
      countOccPos [c] fuel l = l.count c := by
  intro fuel
  induction fuel with
  | zero =>
    intro l hl
    have hnil : l = [] := List.length_eq_zero.mp (Nat.le_zero.mp hl)
    subst hnil
    simp [countOccPos]
  | succ fuel ih =>
    intro l hl
    rcases l with _ | ⟨a, as⟩
    · simp [countOccPos]
    · have has : as.length ≤ fuel := by
        simp only [List.length_cons] at hl
        omega
      by_cases hca : c = a
      · subst hca
        have hpre : ([c]).isPrefixOf (c :: as) = true := by
          simp [List.isPrefixOf]
        unfold countOccPos
        simp [hpre, ih as has, List.count_cons, Nat.add_comm]
      · have hpre : ([c]).isPrefixOf (a :: as) = false := by
          simp [List.isPrefixOf, hca]
        unfold countOccPos
        simp [hpre, ih as has, List.count_cons, hca]

theorem countOcc_singleton (c : Char) (l : List Char) :
    countOcc [c] l = l.count c := by
  simp [countOcc, countOccPos_singleton c l.length l (le_refl _)]

theorem generate_flashcards_foldl (text : List Char) :
    ∀ (kws : List (List Char)) (acc : List Flashcard),
      kws.foldl (fun acc kw =>
        match (flashcardSentences text).find?
            (fun s => occurs (kw.map pyLower) (s.map pyLower)) with
        | some s => acc ++ [⟨("Что такое ").toList ++ kw ++ ("?").toList, s, kw⟩]
        | none => acc) acc
      = acc ++ kws.filterMap (fun kw =>
          ((flashcardSentences text).find?
              (fun s => occurs (kw.map pyLower) (s.map pyLower))).map
            (fun s => ⟨("Что такое ").toList ++ kw ++ ("?").toList, s, kw⟩)) := by
  intro kws
  induction kws with
  | nil => simp
  | cons kw kws ih =>
    intro acc
    rcases hg : (flashcardSentences text).find?
        (fun s => occurs (kw.map pyLower) (s.map pyLower)) with _ | s
    · simp only [List.foldl_cons, List.filterMap_cons, hg, Option.map_none']
      exact ih acc
    · simp only [List.foldl_cons, List.filterMap_cons, hg, Option.map_some']
      rw [ih, List.append_assoc, List.singleton_append]

theorem occurs_nil_eq_true (l : List Char) : occurs [] l = true := by
  cases l <;> simp [occurs, List.isPrefixOf]

theorem occurs_iff_countOccPos (n : List Char) (hn : n ≠ []) :
    ∀ (fuel : Nat) (l : List Char), l.length ≤ fuel →
      (0 < countOccPos n fuel l ↔ occurs n l = true) := by
  intro fuel
  induction fuel with
  | zero =>
    intro l hl
    have hnil : l = [] := List.length_eq_zero.mp (Nat.le_zero.mp hl)
    subst hnil
    simp [countOccPos, occurs, List.isEmpty_iff, hn]
  | succ fuel ih =>
    intro l hl
    rcases l with _ | ⟨c, cs⟩
    · simp [countOccPos, occurs, List.isEmpty_iff, hn]
    · have hcs : cs.length ≤ fuel := by
        simp only [List.length_cons] at hl
        omega
      unfold countOccPos occurs
      by_cases hpre : n.isPrefixOf (c :: cs) = true
      · simp [hpre]
      · have hpre' : n.isPrefixOf (c :: cs) = false := by
          rcases h : n.isPrefixOf (c :: cs) with _ | _
          · rfl
          · exact absurd h hpre
        simp only [hpre', Bool.false_eq_true, if_false, Bool.false_or]
        exact ih cs hcs

theorem occurs_iff_countOcc_pos (n l : List Char) :
    0 < countOcc n l ↔ occurs n l = true := by
  by_cases hn : n = []
  · subst hn
    simp [countOcc, occurs_nil_eq_true]
  · unfold countOcc
    have : n.isEmpty = false := by
      simp [List.isEmpty_iff, hn]
    rw [this]
    simp only [Bool.false_eq_true, if_false]
    exact occurs_iff_countOccPos n hn l.length l (le_refl _)

theorem countOcc_eq_zero_of_not_occurs {n l : List Char}
    (h : occurs n l = false) : countOcc n l = 0 := by
  by_contra hne
  have := (occurs_iff_countOcc_pos n l).mp (Nat.pos_of_ne_zero hne)
  rw [h] at this
  cases this

theorem bump_bump_same (k : List Char) (a b : Nat) :
    ∀ m : List (List Char × Nat), bump (bump m k a) k b = bump m k (a + b) := by
  intro m
  induction m with
  | nil => simp [bump, Nat.add_assoc]
  | cons p rest ih =>
    by_cases hk : p.1 = k
    · simp [bump, hk, Nat.add_assoc]
    · simp [bump, hk, ih]

theorem bump_absent (k : List Char) (v : Nat) :
    ∀ m : List (List Char × Nat), k ∉ m.map Prod.fst →
      bump m k v = m ++ [(k, v)] := by
  intro m
  induction m with
  | nil => simp [bump]
  | cons p rest ih =>
    intro hk
    simp only [List.map_cons, List.mem_cons] at hk
    push_neg at hk
    have h1 : ¬ p.1 = k := fun h => hk.1 h.symm
    simp [bump, h1, ih hk.2]

theorem foldl_bump_eq (s : List Char) (p : List Char → Bool) (v : List Char → Nat) :
    ∀ (kws : List (List Char)) (m : List (List Char × Nat)),
      kws.foldl (fun m k => if p k then bump m s (v k) else m) m =
        if kws.any p then bump m s (((kws.filter p).map v).sum) else m := by
  intro kws
  induction kws with
  | nil => simp
  | cons k kws ih =>
    intro m
    by_cases hp : p k = true
    · simp only [List.foldl_cons, hp, if_true, List.any_cons, Bool.true_or,
        List.filter_cons_of_pos hp, List.map_cons, List.sum_cons]
      rw [ih (bump m s (v k))]
      by_cases hany : kws.any p = true
      · rw [if_pos hany, bump_bump_same]
      · rw [if_neg hany]
        have hfil : kws.filter p = [] := by
          rw [List.filter_eq_nil_iff]
          intro a ha
          simp only [Bool.not_eq_true]
          rcases hpa : p a with _ | _
          · rfl
          · exact absurd (List.any_of_mem ha hpa) hany
        rw [hfil]
        simp
    · have hp' : p k = false := by
        rcases hpk : p k with _ | _
        · rfl
        · exact absurd hpk hp
      simp only [List.foldl_cons, hp', Bool.false_eq_true, if_false,
        List.any_cons, Bool.false_or, List.filter_cons_of_neg hp]
      exact ih m

theorem sum_filter_countOcc (tl : List Char) (kws : List (List Char)) :
    ((kws.filter (fun k => occurs k tl)).map (fun k => countOcc k tl)).sum =
      subjectScore tl kws := by
  unfold subjectScore
  induction kws with
  | nil => simp
  | cons k kws ih =>
    by_cases hk : occurs k tl = true
    · rw [@List.filter_cons_of_pos _ (fun k => occurs k tl) k kws hk,
        List.map_cons, List.sum_cons, ih, List.map_cons, List.sum_cons]
    · have hk' : occurs k tl = false := by
        rcases h : occurs k tl with _ | _
        · rfl
        · exact absurd h hk
      rw [@List.filter_cons_of_neg _ (fun k => occurs k tl) k kws hk, ih,
        List.map_cons, List.sum_cons, countOcc_eq_zero_of_not_occurs hk',
        Nat.zero_add]

theorem subject_scores_eq (tl : List Char) :
    ∀ (lex : List (List Char × List (List Char))) (m : List (List Char × Nat)),
      (∀ q ∈ lex, q.1 ∉ m.map Prod.fst) → (lex.map Prod.fst).Nodup →
      lex.foldl (fun m p => p.2.foldl
        (fun m k => if occurs k tl then bump m p.1 (countOcc k tl) else m) m) m =
        m ++ (lex.filter (fun p => p.2.any (fun k => occurs k tl))).map
          (fun p => (p.1, subjectScore tl p.2)) := by
  intro lex
  induction lex with
  | nil => simp
  | cons p lex ih =>
    intro m hkeys hnodup
    have hp_notin : p.1 ∉ m.map Prod.fst := hkeys p (List.mem_cons_self p lex)
    have hcons : (p.1 :: lex.map Prod.fst).Nodup := by
      simpa using hnodup
    have hnodup' : (lex.map Prod.fst).Nodup := hcons.of_cons
    have hp_lex : ∀ q ∈ lex, q.1 ≠ p.1 := by
      intro q hq hcontra
      exact (List.nodup_cons.mp hcons).1
        (hcontra ▸ List.mem_map_of_mem Prod.fst hq)
    simp only [List.foldl_cons]
    rw [foldl_bump_eq p.1 (fun k => occurs k tl) (fun k => countOcc k tl) p.2 m]
    by_cases hany : p.2.any (fun k => occurs k tl) = true
    · rw [if_pos hany, sum_filter_countOcc,
        bump_absent p.1 (subjectScore tl p.2) m hp_notin,
        ih (m ++ [(p.1, subjectScore tl p.2)]) ?keys hnodup',
        @List.filter_cons_of_pos _ (fun q => q.2.any (fun k => occurs k tl))
          p lex hany]
      · simp [List.append_assoc]
      case keys =>
        intro q hq
        simp only [List.map_append, List.mem_append]
        rintro (h | h)
        · exact hkeys q (List.mem_cons_of_mem p hq) h
        · simp only [List.map_cons, List.map_nil, List.mem_singleton] at h
          exact hp_lex q hq h
    · rw [if_neg hany, ih m (fun q hq => hkeys q (List.mem_cons_of_mem p hq)) hnodup',
        @List.filter_cons_of_neg _ (fun q => q.2.any (fun k => occurs k tl))
          p lex hany]

theorem argmaxFirst_cons (f : α → Nat) (x : α) (xs : List α) :
    argmaxFirst f (x :: xs) =
      match argmaxFirst f xs with
      | none => some x
      | some y => if f x < f y then some y else some x := rfl

theorem argmaxFirst_eq_none (f : α → Nat) :
    ∀ l : List α, argmaxFirst f l = none ↔ l = [] := by
  intro l
  cases l with
  | nil => simp [argmaxFirst]
  | cons x xs =>
    unfold argmaxFirst
    rcases argmaxFirst f xs with _ | y <;> simp
    by_cases h : f x < f y <;> simp [h]

theorem argmaxFirst_mem (f : α → Nat) :
    ∀ (l : List α) (y : α), argmaxFirst f l = some y → y ∈ l := by
  intro l
  induction l with
  | nil =>
    intro y h
    cases h
  | cons x xs ih =>
    intro y h
    unfold argmaxFirst at h
    rcases har : argmaxFirst f xs with _ | z <;> rw [har] at h <;>
      dsimp only at h
    · cases h
      exact List.mem_cons_self x xs
    · by_cases hlt : f x < f z
      · rw [if_pos hlt] at h
        cases h
        exact List.mem_cons_of_mem x (ih _ har)
      · rw [if_neg hlt] at h
        cases h
        exact List.mem_cons_self x xs

theorem argmaxFirst_le (f : α → Nat) :
    ∀ (l : List α) (y : α), argmaxFirst f l = some y →
      ∀ a ∈ l, f a ≤ f y := by
  intro l
  induction l with
  | nil => intro y h; cases h
  | cons x xs ih =>
    intro y h a ha
    unfold argmaxFirst at h
    rcases har : argmaxFirst f xs with _ | z <;> rw [har] at h <;>
      dsimp only at h
    · cases h
      rcases List.mem_cons.mp ha with rfl | ha'
      · exact le_refl _
      · exact absurd ((argmaxFirst_eq_none f xs).mp har ▸ ha') (List.not_mem_nil a)
    · by_cases hlt : f x < f z
      · rw [if_pos hlt] at h
        cases h
        rcases List.mem_cons.mp ha with rfl | ha'
        · exact le_of_lt hlt
        · exact ih _ har a ha'
      · rw [if_neg hlt] at h
        cases h
        rcases List.mem_cons.mp ha with rfl | ha'
        · exact le_refl _
        · exact le_trans (ih _ har a ha') (not_lt.mp hlt)

theorem argmaxFirst_map (f : β → Nat) (g : α → β) :
    ∀ l : List α,
      argmaxFirst f (l.map g) = (argmaxFirst (fun a => f (g a)) l).map g := by
  intro l
  induction l with
  | nil => simp [argmaxFirst]
  | cons x xs ih =>
    simp only [List.map_cons]
    unfold argmaxFirst
    rw [ih]
    rcases argmaxFirst (fun a => f (g a)) xs with _ | y
    · simp
    · simp only [Option.map_some']
      by_cases h : f (g x) < f (g y)
      · simp [h]
      · simp [h]

theorem argmaxFirst_filter_pos (f : α → Nat) :
    ∀ l : List α, (∃ a ∈ l, 0 < f a) →
      argmaxFirst f (l.filter (fun a => decide (0 < f a))) = argmaxFirst f l := by
  intro l
  induction l with
  | nil =>
    rintro ⟨a, ha, -⟩
    cases ha
  | cons x xs ih =>
    intro hex
    by_cases hx : 0 < f x
    · rw [List.filter_cons_of_pos (by simpa using hx)]
      by_cases hxs : ∃ a ∈ xs, 0 < f a
      · rw [argmaxFirst_cons, argmaxFirst_cons, ih hxs]
      · have hfil : xs.filter (fun a => decide (0 < f a)) = [] := by
          rw [List.filter_eq_nil_iff]
          intro a ha
          simp only [decide_eq_true_eq]
          exact fun h => hxs ⟨a, ha, h⟩
        rw [hfil, argmaxFirst_cons, argmaxFirst_cons,
          show argmaxFirst f [] = (none : Option α) from rfl]
        rcases hy : argmaxFirst f xs with _ | y
        · rfl
        · have hymem := argmaxFirst_mem f xs y hy
          have hy0 : f y = 0 :=
            Nat.eq_zero_of_not_pos (fun h => hxs ⟨y, hymem, h⟩)
          have hnlt : ¬ f x < f y := by omega
          dsimp only
          rw [if_neg hnlt]
    · rw [List.filter_cons_of_neg (by simpa using hx)]
      have hxs : ∃ a ∈ xs, 0 < f a := by
        rcases hex with ⟨a, ha, hfa⟩
        rcases List.mem_cons.mp ha with rfl | ha'
        · exact absurd hfa hx
        · exact ⟨a, ha', hfa⟩
      rw [ih hxs]
      rcases hy : argmaxFirst f xs with _ | y
      · rcases hxs with ⟨a, ha, -⟩
        rw [(argmaxFirst_eq_none f xs).mp hy] at ha
        cases ha
      · rcases hxs with ⟨a, ha, hfa⟩
        have hmax := argmaxFirst_le f xs y hy a ha
        have hlt : f x < f y := by omega
        have hax : argmaxFirst f (x :: xs) = some y := by
          rw [argmaxFirst_cons, hy]
          dsimp only
          rw [if_pos hlt]
        rw [hax]

theorem sum_map_one (l : List α) : (l.map (fun _ => (1 : Nat))).sum = l.length := by
  induction l with
  | nil => simp
  | cons a l ih => simp [ih, Nat.add_comm]

theorem lexicon_fold_eq (pB : List Char → Bool) (v : List Char → Nat) :
    ∀ (lex : List (List Char × List (List Char))) (m : List (List Char × Nat)),
      (∀ q ∈ lex, q.1 ∉ m.map Prod.fst) → (lex.map Prod.fst).Nodup →
      lex.foldl (fun m p => p.2.foldl
        (fun m k => if pB k then bump m p.1 (v k) else m) m) m =
        m ++ (lex.filter (fun p => p.2.any pB)).map
          (fun p => (p.1, ((p.2.filter pB).map v).sum)) := by
  intro lex
  induction lex with
  | nil => simp
  | cons p lex ih =>
    intro m hkeys hnodup
    have hp_notin : p.1 ∉ m.map Prod.fst := hkeys p (List.mem_cons_self p lex)
    have hcons : (p.1 :: lex.map Prod.fst).Nodup := by
      simpa using hnodup
    have hnodup' : (lex.map Prod.fst).Nodup := hcons.of_cons
    have hp_lex : ∀ q ∈ lex, q.1 ≠ p.1 := by
      intro q hq hcontra
      exact (List.nodup_cons.mp hcons).1
        (hcontra ▸ List.mem_map_of_mem Prod.fst hq)
    simp only [List.foldl_cons]
    rw [foldl_bump_eq p.1 pB v p.2 m]
    by_cases hany : p.2.any pB = true
    · rw [if_pos hany,
        bump_absent p.1 (((p.2.filter pB).map v).sum) m hp_notin,
        ih (m ++ [(p.1, ((p.2.filter pB).map v).sum)]) ?keys hnodup',
        @List.filter_cons_of_pos _ (fun q => q.2.any pB) p lex hany]
      · simp [List.append_assoc]
      case keys =>
        intro q hq
        simp only [List.map_append, List.mem_append]
        rintro (h | h)
        · exact hkeys q (List.mem_cons_of_mem p hq) h
        · simp only [List.map_cons, List.map_nil, List.mem_singleton] at h
          exact hp_lex q hq h
    · rw [if_neg hany, ih m (fun q hq => hkeys q (List.mem_cons_of_mem p hq)) hnodup',
        @List.filter_cons_of_neg _ (fun q => q.2.any pB) p lex hany]

theorem lookup_none_of_not_mem_keys :
    ∀ (m : List (List Char × Nat)) (k : List Char),
      k ∉ m.map Prod.fst → m.lookup k = none := by
  intro m
  induction m with
  | nil => intro k _; rfl
  | cons p rest ih =>
    intro k hk
    simp only [List.map_cons, List.mem_cons] at hk
    push_neg at hk
    have h1 : (k == p.1) = false := beq_eq_false_iff_ne.mpr hk.1
    simp [List.lookup, h1, ih k hk.2]

theorem lookup_of_mem_nodup :
    ∀ (m : List (List Char × Nat)) (k : List Char) (v : Nat),
      (k, v) ∈ m → (m.map Prod.fst).Nodup → m.lookup k = some v := by
  intro m
  induction m with
  | nil =>
    intro k v h _
    cases h
  | cons p rest ih =>
    intro k v h hnodup
    have hcons : (p.1 :: rest.map Prod.fst).Nodup := by simpa using hnodup
    rcases List.mem_cons.mp h with rfl | h'
    · simp [List.lookup]
    · have hk : p.1 ≠ k := by
        intro hcontra
        exact (List.nodup_cons.mp hcons).1
          (hcontra ▸ List.mem_map_of_mem Prod.fst h')
      have h1 : (k == p.1) = false :=
        beq_eq_false_iff_ne.mpr (fun h => hk h.symm)
      simp [List.lookup, h1, ih k v h' hcons.of_cons]

theorem lookup_bump_self :
    ∀ (m : List (List Char × Nat)) (k : List Char) (v : Nat),
      (bump m k v).lookup k = some (((m.lookup k).getD 0) + v) := by
  intro m
  induction m with
  | nil =>
    intro k v
    simp [bump, List.lookup]
  | cons p rest ih =>
    intro k v
    by_cases hk : p.1 = k
    · simp [bump, hk, List.lookup]
    · have h1 : (k == p.1) = false :=
        beq_eq_false_iff_ne.mpr (fun h => hk h.symm)
      simp [bump, hk, List.lookup, h1, ih k v]

theorem lookup_bump_ne (k k' : List Char) (hne : k' ≠ k) :
    ∀ (m : List (List Char × Nat)) (v : Nat),
      (bump m k v).lookup k' = m.lookup k' := by
  intro m
  induction m with
  | nil =>
    intro v
    have h1 : (k' == k) = false := beq_eq_false_iff_ne.mpr hne
    simp [bump, List.lookup, h1]
  | cons p rest ih =>
    intro v
    by_cases hk : p.1 = k
    · have h2 : (k' == k) = false := beq_eq_false_iff_ne.mpr hne
      simp [bump, hk, List.lookup, h2]
    · simp only [bump, hk, if_false]
      by_cases hk' : p.1 = k'
      · simp [List.lookup, hk'.symm]
      · have h1 : (k' == p.1) = false :=
          beq_eq_false_iff_ne.mpr (fun h => hk' h.symm)
        simp [List.lookup, h1, ih v]

theorem mem_keys_bump :
    ∀ (m : List (List Char × Nat)) (k : List Char) (v : Nat) (k' : List Char),
      k' ∈ (bump m k v).map Prod.fst → k' ∈ m.map Prod.fst ∨ k' = k := by
  intro m
  induction m with
  | nil =>
    intro k v k' h
    simp [bump] at h
    exact Or.inr h
  | cons p rest ih =>
    intro k v k' h
    by_cases hk : p.1 = k
    · rw [show bump (p :: rest) k v = (p.1, p.2 + v) :: rest from by
        simp [bump, hk]] at h
      simp only [List.map_cons, List.mem_cons] at h ⊢
      rcases h with h | h
      · exact Or.inl (Or.inl h)
      · exact Or.inl (Or.inr h)
    · simp only [bump, hk, if_false] at h
      simp only [List.map_cons, List.mem_cons] at h ⊢
      rcases h with h | h
      · exact Or.inl (Or.inl h)
      · rcases ih k v k' h with h' | h'
        · exact Or.inl (Or.inr h')
        · exact Or.inr h'

theorem bump_keys_nodup :
    ∀ (m : List (List Char × Nat)) (k : List Char) (v : Nat),
      (m.map Prod.fst).Nodup → ((bump m k v).map Prod.fst).Nodup := by
  intro m
  induction m with
  | nil =>
    intro k v _
    simp [bump]
  | cons p rest ih =>
    intro k v hnodup
    have hcons : (p.1 :: rest.map Prod.fst).Nodup := by simpa using hnodup
    by_cases hk : p.1 = k
    · simpa [bump, hk] using hcons
    · simp only [bump, hk, if_false, List.map_cons]
      rw [List.nodup_cons]
      refine ⟨?_, ih k v hcons.of_cons⟩
      intro hmem
      rcases mem_keys_bump rest k v p.1 hmem with h | h
      · exact (List.nodup_cons.mp hcons).1 h
      · exact hk h

theorem lookup_filtermap_of_mem {q : List Char × List (List Char) → Bool}
    (g : List Char × List (List Char) → Nat) :
    ∀ lex : List (List Char × List (List Char)), (lex.map Prod.fst).Nodup →
      ∀ p0 ∈ lex,
        ((lex.filter q).map (fun p => (p.1, g p))).lookup p0.1 =
          if q p0 then some (g p0) else none := by
  intro lex
  induction lex with
  | nil =>
    intro _ p0 h
    cases h
  | cons p lex ih =>
    intro hnodup p0 hp0
    have hcons : (p.1 :: lex.map Prod.fst).Nodup := by simpa using hnodup
    have hkeysub : ∀ k, k ∈ ((lex.filter q).map
        (fun p => (p.1, g p))).map Prod.fst → k ∈ lex.map Prod.fst := by
      intro k hk
      rw [List.map_map] at hk
      have hcomp : (Prod.fst ∘ fun p : List Char × List (List Char) => (p.1, g p)) =
          Prod.fst := rfl
      rw [hcomp] at hk
      have hsub : (lex.filter q).Sublist lex := List.filter_sublist lex
      exact (hsub.map Prod.fst).subset hk
    rcases List.mem_cons.mp hp0 with rfl | hp0'
    · by_cases hq : q p0 = true
      · rw [@List.filter_cons_of_pos _ q p0 lex hq, if_pos hq]
        simp [List.lookup]
      · rw [@List.filter_cons_of_neg _ q p0 lex hq, if_neg hq]
        apply lookup_none_of_not_mem_keys
        intro hmem
        exact (List.nodup_cons.mp hcons).1 (hkeysub _ hmem)
    · have hne : p.1 ≠ p0.1 := by
        intro hcontra
        exact (List.nodup_cons.mp hcons).1
          (hcontra ▸ List.mem_map_of_mem Prod.fst hp0')
      by_cases hq : q p = true
      · rw [@List.filter_cons_of_pos _ q p lex hq]
        have h1 : (p0.1 == p.1) = false :=
          beq_eq_false_iff_ne.mpr (fun h => hne h.symm)
        simp only [List.map_cons, List.lookup, h1]
        exact ih hcons.of_cons p0 hp0'
      · rw [@List.filter_cons_of_neg _ q p lex hq]
        exact ih hcons.of_cons p0 hp0'

theorem any_occurs_eq (tl : List Char) (kws : List (List Char)) :
    kws.any (fun k => occurs k tl) = decide (0 < subjectScore tl kws) := by
  by_cases h : kws.any (fun k => occurs k tl) = true
  · rw [h]
    rcases List.any_eq_true.mp h with ⟨k, hk, hocc⟩
    have hpos : 0 < countOcc k tl := (occurs_iff_countOcc_pos k tl).mpr hocc
    have hle : countOcc k tl ≤ (kws.map (fun k => countOcc k tl)).sum :=
      List.single_le_sum (fun x _ => Nat.zero_le x) _
        (List.mem_map_of_mem (fun k => countOcc k tl) hk)
    have hscore : 0 < subjectScore tl kws := by
      unfold subjectScore
      omega
    simp [hscore]
  · have h' : kws.any (fun k => occurs k tl) = false := by
      rcases hh : kws.any (fun k => occurs k tl) with _ | _
      · rfl
      · exact absurd hh h
    rw [h']
    have hzero : subjectScore tl kws = 0 := by
      unfold subjectScore
      apply List.sum_eq_zero
      intro x hx
      rcases List.mem_map.mp hx with ⟨k, hk, rfl⟩
      apply countOcc_eq_zero_of_not_occurs
      have := List.any_eq_false.mp h' k hk
      rcases hko : occurs k tl with _ | _
      · rfl
      · exact absurd hko this
    simp [hzero]

theorem styleScores_m0 (text : List Char) :
    styleLexicon.foldl (fun m p => p.2.foldl
      (fun m k => if occurs k (text.map pyLower) then bump m p.1 1 else m) m) [] =
    (styleLexicon.filter
        (fun p => p.2.any (fun k => occurs k (text.map pyLower)))).map
      (fun p => (p.1, p.2.countP (fun k => occurs k (text.map pyLower)))) := by
  rw [lexicon_fold_eq (fun k => occurs k (text.map pyLower)) (fun _ => 1)
    styleLexicon [] (by intro q hq; simp) (by decide), List.nil_append]
  apply List.map_congr_left
  intro p hp
  simp [sum_map_one, List.countP_eq_length_filter]

theorem countP_pos_of_any {kws : List (List Char)} {p : List Char → Bool}
    (h : kws.any p = true) : 0 < kws.countP p := by
  rcases List.any_eq_true.mp h with ⟨k, hk, hp⟩
  exact List.countP_pos_iff.mpr ⟨k, hk, hp⟩

theorem countP_zero_of_not_any {kws : List (List Char)} {p : List Char → Bool}
    (h : kws.any p = false) : kws.countP p = 0 := by
  apply List.countP_eq_zero.mpr
  intro a ha
  have := List.any_eq_false.mp h a ha
  simpa using this

theorem styleScores_lookup (text : List Char) :
    ∀ s ∈ [strVisual, strAuditory, strPractical],
      (styleScores text).lookup s =
        if specStyleScore text s = 0 then none
        else some (specStyleScore text s) := by
  have hnodup : (styleLexicon.map Prod.fst).Nodup := by decide
  have hvis : ((strVisual, visualKeywords) :
      List Char × List (List Char)) ∈ styleLexicon := by
    simp [styleLexicon]
  have haud : ((strAuditory, auditoryKeywords) :
      List Char × List (List Char)) ∈ styleLexicon := by
    simp [styleLexicon]
  have hprac : ((strPractical, practicalKeywords) :
      List Char × List (List Char)) ∈ styleLexicon := by
    simp [styleLexicon]
  have hVP : strVisual ≠ strPractical := by decide
  have hAP : strAuditory ≠ strPractical := by decide
  have hAV : strAuditory ≠ strVisual := by decide
  have hPV : strPractical ≠ strVisual := by decide
  have L0v : ((styleLexicon.filter
        (fun p => p.2.any (fun k => occurs k (text.map pyLower)))).map
      (fun p => (p.1, p.2.countP (fun k => occurs k (text.map pyLower))))).lookup
        strVisual =
      if visualKeywords.any (fun k => occurs k (text.map pyLower)) then
        some (visualKeywords.countP (fun k => occurs k (text.map pyLower)))
      else none :=
    lookup_filtermap_of_mem _ styleLexicon hnodup _ hvis
  have L0a : ((styleLexicon.filter
        (fun p => p.2.any (fun k => occurs k (text.map pyLower)))).map
      (fun p => (p.1, p.2.countP (fun k => occurs k (text.map pyLower))))).lookup
        strAuditory =
      if auditoryKeywords.any (fun k => occurs k (text.map pyLower)) then
        some (auditoryKeywords.countP (fun k => occurs k (text.map pyLower)))
      else none :=
    lookup_filtermap_of_mem _ styleLexicon hnodup _ haud
  have L0p : ((styleLexicon.filter
        (fun p => p.2.any (fun k => occurs k (text.map pyLower)))).map
      (fun p => (p.1, p.2.countP (fun k => occurs k (text.map pyLower))))).lookup
        strPractical =
      if practicalKeywords.any (fun k => occurs k (text.map pyLower)) then
        some (practicalKeywords.countP (fun k => occurs k (text.map pyLower)))
      else none :=
    lookup_filtermap_of_mem _ styleLexicon hnodup _ hprac
  have hlookupv : styleLexicon.lookup strVisual = some visualKeywords := by rfl
  have hlookupa : styleLexicon.lookup strAuditory = some auditoryKeywords := by rfl
  have hlookupp : styleLexicon.lookup strPractical = some practicalKeywords := by
    rfl
  have align : ∀ kws : List (List Char),
      (if kws.any (fun k => occurs k (text.map pyLower)) = true
        then some (kws.countP (fun k => occurs k (text.map pyLower))) else none) =
      (if kws.countP (fun k => occurs k (text.map pyLower)) = 0 then none
        else some (kws.countP (fun k => occurs k (text.map pyLower)))) := by
    intro kws
    rcases hq : kws.any (fun k => occurs k (text.map pyLower)) with _ | _
    · rw [if_neg (by simp : ¬(false = true)), countP_zero_of_not_any hq,
        if_pos rfl]
    · have := countP_pos_of_any hq
      rw [if_pos rfl, if_neg (by omega)]
  have hgetD : ∀ kws : List (List Char),
      ((if kws.any (fun k => occurs k (text.map pyLower)) = true
        then some (kws.countP (fun k => occurs k (text.map pyLower)))
        else none).getD 0) =
      kws.countP (fun k => occurs k (text.map pyLower)) := by
    intro kws
    rcases hq : kws.any (fun k => occurs k (text.map pyLower)) with _ | _
    · rw [if_neg (by simp : ¬(false = true)), countP_zero_of_not_any hq]
      rfl
    · rw [if_pos rfl]
      rfl
  have hpassPv : ∀ M : List (List Char × Nat),
      (if codeMarkerCond text = true then bump M strPractical 5
       else M).lookup strVisual = M.lookup strVisual := by
    intro M
    by_cases hc1 : codeMarkerCond text = true
    · rw [if_pos hc1, lookup_bump_ne strPractical strVisual hVP]
    · rw [if_neg hc1]
  have hpassPa : ∀ M : List (List Char × Nat),
      (if codeMarkerCond text = true then bump M strPractical 5
       else M).lookup strAuditory = M.lookup strAuditory := by
    intro M
    by_cases hc1 : codeMarkerCond text = true
    · rw [if_pos hc1, lookup_bump_ne strPractical strAuditory hAP]
    · rw [if_neg hc1]
  have hpassVa : ∀ M : List (List Char × Nat),
      (if styleBulletCond text = true then bump M strVisual 3
       else M).lookup strAuditory = M.lookup strAuditory := by
    intro M
    by_cases hc2 : styleBulletCond text = true
    · rw [if_pos hc2, lookup_bump_ne strVisual strAuditory hAV]
    · rw [if_neg hc2]
  have hpassVp : ∀ M : List (List Char × Nat),
      (if styleBulletCond text = true then bump M strVisual 3
       else M).lookup strPractical = M.lookup strPractical := by
    intro M
    by_cases hc2 : styleBulletCond text = true
    · rw [if_pos hc2, lookup_bump_ne strVisual strPractical hPV]
    · rw [if_neg hc2]
  intro s hs
  unfold styleScores
  dsimp only
  rw [styleScores_m0 text]
  simp only [List.mem_cons, List.not_mem_nil, or_false] at hs
  rcases hs with rfl | rfl | rfl
  · -- s = strVisual
    have hspec : specStyleScore text strVisual =
        visualKeywords.countP (fun k => occurs k (text.map pyLower)) +
          (if styleBulletCond text = true then 3 else 0) := by
      unfold specStyleScore
      dsimp only
      rw [hlookupv]
      dsimp only
      rw [if_neg (fun h : strVisual = strPractical ∧ codeMarkerCond text = true =>
        hVP h.1)]
      by_cases hc2 : styleBulletCond text = true
      · rw [if_pos (⟨rfl, hc2⟩ :
            strVisual = strVisual ∧ styleBulletCond text = true), if_pos hc2]
      · rw [if_neg
          (fun h : strVisual = strVisual ∧ styleBulletCond text = true =>
            hc2 h.2), if_neg hc2]
    rw [hspec]
    rcases hc2 : styleBulletCond text with _ | _
    · simp only [hc2, Bool.false_eq_true, if_false, Nat.add_zero]
      rw [hpassPv, L0v, align visualKeywords]
    · simp only [hc2, eq_self_iff_true, if_true]
      rw [lookup_bump_self, hpassPv, L0v, hgetD visualKeywords,
        if_neg (by omega : ¬(visualKeywords.countP
          (fun k => occurs k (text.map pyLower)) + 3 = 0))]
  · -- s = strAuditory
    have hspec : specStyleScore text strAuditory =
        auditoryKeywords.countP (fun k => occurs k (text.map pyLower)) := by
      unfold specStyleScore
      dsimp only
      rw [hlookupa]
      dsimp only
      rw [if_neg (fun h : strAuditory = strPractical ∧ codeMarkerCond text = true =>
          hAP h.1),
        if_neg (fun h : strAuditory = strVisual ∧ styleBulletCond text = true =>
          hAV h.1)]
      omega
    rw [hspec, hpassVa, hpassPa, L0a, align auditoryKeywords]
  · -- s = strPractical
    have hspec : specStyleScore text strPractical =
        practicalKeywords.countP (fun k => occurs k (text.map pyLower)) +
          (if codeMarkerCond text = true then 5 else 0) := by
      unfold specStyleScore
      dsimp only
      rw [hlookupp]
      dsimp only
      by_cases hc1 : codeMarkerCond text = true
      · rw [if_pos (⟨rfl, hc1⟩ :
            strPractical = strPractical ∧ codeMarkerCond text = true),
          if_neg (fun h : strPractical = strVisual ∧ styleBulletCond text = true =>
            hPV h.1), if_pos hc1]
      · rw [if_neg
          (fun h : strPractical = strPractical ∧ codeMarkerCond text = true =>
            hc1 h.2),
          if_neg (fun h : strPractical = strVisual ∧ styleBulletCond text = true =>
            hPV h.1), if_neg hc1]
    rw [hspec, hpassVp]
    rcases hc1 : codeMarkerCond text with _ | _
    · simp only [hc1, Bool.false_eq_true, if_false, Nat.add_zero]
      rw [L0p, align practicalKeywords]
    · simp only [hc1, eq_self_iff_true, if_true]
      rw [lookup_bump_self, L0p, hgetD practicalKeywords,
        if_neg (by omega : ¬(practicalKeywords.countP
          (fun k => occurs k (text.map pyLower)) + 5 = 0))]

theorem mem_keys_of_lookup_some :
    ∀ (m : List (List Char × Nat)) (k : List Char) (v : Nat),
      m.lookup k = some v → k ∈ m.map Prod.fst := by
  intro m
  induction m with
  | nil =>
    intro k v h
    cases h
  | cons p rest ih =>
    intro k v h
    simp only [List.map_cons, List.mem_cons]
    rcases hbe : (k == p.1) with _ | _
    · simp only [List.lookup, hbe] at h
      exact Or.inr (ih k v h)
    · exact Or.inl (by simpa using hbe)

theorem lookup_isSome_of_mem_keys :
    ∀ (m : List (List Char × Nat)) (k : List Char),
      k ∈ m.map Prod.fst → ∃ v, m.lookup k = some v := by
  intro m
  induction m with
  | nil =>
    intro k h
    cases h
  | cons p rest ih =>
    intro k h
    simp only [List.map_cons, List.mem_cons] at h
    rcases h with rfl | h'
    · exact ⟨p.2, by simp [List.lookup]⟩
    · rcases hbe : (k == p.1) with _ | _
      · rcases ih k h' with ⟨v, hv⟩
        exact ⟨v, by simp [List.lookup, hbe, hv]⟩
      · exact ⟨p.2, by simp [List.lookup, hbe]⟩

theorem keys_filtermap_sub (q : List Char × List (List Char) → Bool)
    (g : List Char × List (List Char) → Nat)
    (lex : List (List Char × List (List Char))) :
    ∀ k ∈ ((lex.filter q).map (fun p => (p.1, g p))).map Prod.fst,
      k ∈ lex.map Prod.fst := by
  intro k hk
  rw [List.map_map] at hk
  have hcomp : (Prod.fst ∘ fun p : List Char × List (List Char) => (p.1, g p)) =
      Prod.fst := rfl
  rw [hcomp] at hk
  have hsub : (lex.filter q).Sublist lex := List.filter_sublist lex
  exact (hsub.map Prod.fst).subset hk

theorem styleScores_keys_sub (text : List Char) :
    ∀ k ∈ (styleScores text).map Prod.fst,
      k ∈ [strVisual, strAuditory, strPractical] := by
  intro k hk
  unfold styleScores at hk
  dsimp only at hk
  rw [styleScores_m0 text] at hk
  have hlexkeys : styleLexicon.map Prod.fst =
      [strVisual, strAuditory, strPractical] := rfl
  have hbase : ∀ k', k' ∈ ((styleLexicon.filter
        (fun p => p.2.any (fun k => occurs k (text.map pyLower)))).map
      (fun p => (p.1, p.2.countP
        (fun k => occurs k (text.map pyLower))))).map Prod.fst →
      k' ∈ [strVisual, strAuditory, strPractical] := by
    intro k' hk'
    rw [← hlexkeys]
    exact keys_filtermap_sub _ _ styleLexicon k' hk'
  by_cases hc2 : styleBulletCond text = true <;>
    by_cases hc1 : codeMarkerCond text = true
  · rw [if_pos hc2, if_pos hc1] at hk
    rcases mem_keys_bump _ _ _ _ hk with hk' | rfl
    · rcases mem_keys_bump _ _ _ _ hk' with hk'' | rfl
      · exact hbase _ hk''
      · simp
    · simp
  · rw [if_pos hc2, if_neg hc1] at hk
    rcases mem_keys_bump _ _ _ _ hk with hk' | rfl
    · exact hbase _ hk'
    · simp
  · rw [if_neg hc2, if_pos hc1] at hk
    rcases mem_keys_bump _ _ _ _ hk with hk' | rfl
    · exact hbase _ hk'
    · simp
  · rw [if_neg hc2, if_neg hc1] at hk
    exact hbase _ hk

theorem styleScores_keys_nodup (text : List Char) :
    ((styleScores text).map Prod.fst).Nodup := by
  unfold styleScores
  dsimp only
  rw [styleScores_m0 text]
  have hnodup : (styleLexicon.map Prod.fst).Nodup := by decide
  have hbase : (((styleLexicon.filter
        (fun p => p.2.any (fun k => occurs k (text.map pyLower)))).map
      (fun p => (p.1, p.2.countP
        (fun k => occurs k (text.map pyLower))))).map Prod.fst).Nodup := by
    rw [List.map_map]
    have hcomp : (Prod.fst ∘ fun p : List Char × List (List Char) =>
        (p.1, p.2.countP (fun k => occurs k (text.map pyLower)))) =
        Prod.fst := rfl
    rw [hcomp]
    have hsub : (styleLexicon.filter
        (fun p => p.2.any (fun k => occurs k (text.map pyLower)))).Sublist
        styleLexicon := List.filter_sublist styleLexicon
    exact (hsub.map Prod.fst).nodup hnodup
  by_cases hc2 : styleBulletCond text = true <;>
    by_cases hc1 : codeMarkerCond text = true
  · rw [if_pos hc2, if_pos hc1]
    exact bump_keys_nodup _ _ _ (bump_keys_nodup _ _ _ hbase)
  · rw [if_pos hc2, if_neg hc1]
    exact bump_keys_nodup _ _ _ hbase
  · rw [if_neg hc2, if_pos hc1]
    exact bump_keys_nodup _ _ _ hbase
  · rw [if_neg hc2, if_neg hc1]
    exact hbase

theorem styleScores_entry_spec (text : List Char) :
    ∀ p ∈ styleScores text,
      p.1 ∈ [strVisual, strAuditory, strPractical] ∧
        p.2 = specStyleScore text p.1 ∧ 0 < p.2 := by
  intro p hp
  have hkey : p.1 ∈ (styleScores text).map Prod.fst :=
    List.mem_map_of_mem Prod.fst hp
  have hthree := styleScores_keys_sub text p.1 hkey
  have hlookup : (styleScores text).lookup p.1 = some p.2 := by
    have : ((p.1, p.2) :
        List Char × Nat) ∈ styleScores text := by simpa using hp
    exact lookup_of_mem_nodup _ _ _ this (styleScores_keys_nodup text)
  have hchar := styleScores_lookup text p.1 hthree
  rw [hlookup] at hchar
  by_cases hzero : specStyleScore text p.1 = 0
  · rw [if_pos hzero] at hchar
    cases hchar
  · rw [if_neg hzero] at hchar
    have := Option.some.inj hchar
    exact ⟨hthree, this, by omega⟩

theorem styleScores_nil_iff (text : List Char) :
    styleScores text = [] ↔
      ∀ s ∈ [strVisual, strAuditory, strPractical],
        specStyleScore text s = 0 := by
  constructor
  · intro hnil s hsmem
    by_contra hne
    have hchar := styleScores_lookup text s hsmem
    rw [hnil, if_neg hne] at hchar
    cases hchar
  · intro hall
    rcases hm : styleScores text with _ | ⟨p, rest⟩
    · rfl
    · exfalso
      have hp : p ∈ styleScores text := by
        rw [hm]
        exact List.mem_cons_self p rest
      have := (styleScores_entry_spec text p hp).2.1
      have hpos := (styleScores_entry_spec text p hp).2.2
      have hthree := (styleScores_entry_spec text p hp).1
      have hzero := hall p.1 hthree
      omega

theorem suggest_of_styleScores_nil {text : List Char}
    (h : styleScores text = []) :
    suggest_learning_style text = defaultStyles := by
  unfold suggest_learning_style
  rw [h]
  rfl

theorem suggest_length_le_two {text : List Char}
    (h : styleScores text ≠ []) :
    (suggest_learning_style text).length ≤ 2 := by
  unfold suggest_learning_style
  have hlen : (sortedStyles (styleScores text)).length =
      (styleScores text).length := by
    simp [sortedStyles]
  have hcond : ¬((sortedStyles (styleScores text)).isEmpty = true) := by
    simp only [List.isEmpty_iff]
    intro hcontra
    apply h
    rw [hcontra] at hlen
    exact List.length_eq_zero.mp hlen.symm
  rw [if_neg hcond]
  simp only [List.length_map]
  have := List.length_take_le 2 (sortedStyles (styleScores text))
  omega

instance : IsTotal (Nat × (List Char × Nat)) styleRel :=
  ⟨by
    intro a b
    unfold styleRel
    omega⟩

instance : IsTrans (Nat × (List Char × Nat)) styleRel :=
  ⟨by
    intro a b c hab hbc
    unfold styleRel at *
    omega⟩

theorem suggest_top2 (text : List Char) :
    ∀ a ∈ suggest_learning_style text,
      ∀ b ∈ [strVisual, strAuditory, strPractical],
        b ∉ suggest_learning_style text →
          specStyleScore text b ≤ specStyleScore text a := by
  intro a ha b hb hbnot
  by_cases hnil : styleScores text = []
  · exfalso
    apply hbnot
    rw [suggest_of_styleScores_nil hnil]
    simp only [List.mem_cons, List.not_mem_nil, or_false] at hb
    rcases hb with rfl | rfl | rfl <;> simp [defaultStyles]
  · have hsugg : suggest_learning_style text =
        ((((styleScores text).enum.insertionSort styleRel).take 2).map
          (fun e => e.2.1)) := by
      unfold suggest_learning_style
      have hcond : ¬((sortedStyles (styleScores text)).isEmpty = true) := by
        simp only [List.isEmpty_iff]
        intro hcontra
        apply hnil
        have hlen : (sortedStyles (styleScores text)).length =
            (styleScores text).length := by
          simp [sortedStyles]
        rw [hcontra] at hlen
        exact List.length_eq_zero.mp hlen.symm
      rw [if_neg hcond]
      unfold sortedStyles
      rw [← List.map_take, List.map_map]
      rfl
    have hS : List.Sorted styleRel
        ((styleScores text).enum.insertionSort styleRel) :=
      List.sorted_insertionSort styleRel ((styleScores text).enum)
    have hperm : ((styleScores text).enum.insertionSort styleRel).Perm
        ((styleScores text).enum) :=
      List.perm_insertionSort styleRel ((styleScores text).enum)
    have hcross : ∀ x ∈ ((styleScores text).enum.insertionSort styleRel).take 2,
        ∀ y ∈ ((styleScores text).enum.insertionSort styleRel).drop 2,
          styleRel x y := by
      have hpw : List.Pairwise styleRel
          (((styleScores text).enum.insertionSort styleRel).take 2 ++
            ((styleScores text).enum.insertionSort styleRel).drop 2) := by
        rw [List.take_append_drop]
        exact hS
      exact fun x hx y hy => (List.pairwise_append.mp hpw).2.2 x hx y hy
    have hmemsnd : ∀ e : Nat × (List Char × Nat),
        e ∈ (styleScores text).enum → e.2 ∈ styleScores text := by
      intro e he
      have : e.2 ∈ (styleScores text).enum.map Prod.snd :=
        List.mem_map_of_mem Prod.snd he
      rwa [List.enum_map_snd] at this
    rw [hsugg] at ha
    rcases List.mem_map.mp ha with ⟨ea, hea_take, hea_fst⟩
    have hea_mem : ea.2 ∈ styleScores text :=
      hmemsnd ea (hperm.mem_iff.mp ((List.take_sublist 2 _).subset hea_take))
    have hea_spec := styleScores_entry_spec text ea.2 hea_mem
    by_cases hbkeys : b ∈ (styleScores text).map Prod.fst
    · rcases List.mem_map.mp hbkeys with ⟨pb, hpbm, hpbfst⟩
      have hpb_enum : ∃ e ∈ (styleScores text).enum, e.2 = pb := by
        have : pb ∈ (styleScores text).enum.map Prod.snd := by
          rw [List.enum_map_snd]
          exact hpbm
        exact List.mem_map.mp this
      rcases hpb_enum with ⟨eb, heb_enum, heb_snd⟩
      have heb_S : eb ∈ (styleScores text).enum.insertionSort styleRel :=
        hperm.mem_iff.mpr heb_enum
      have heb_split : eb ∈ ((styleScores text).enum.insertionSort
            styleRel).take 2 ∨
          eb ∈ ((styleScores text).enum.insertionSort styleRel).drop 2 := by
        rw [← List.mem_append, List.take_append_drop]
        exact heb_S
      rcases heb_split with htk | hdr
      · exfalso
        apply hbnot
        rw [hsugg]
        have : eb.2.1 = b := by rw [heb_snd, hpbfst]
        rw [← this]
        exact List.mem_map_of_mem (fun e => e.2.1) htk
      · have hrel := hcross ea hea_take eb hdr
        have hle : eb.2.2 ≤ ea.2.2 := by
          unfold styleRel at hrel
          omega
        have hpb_spec := styleScores_entry_spec text pb hpbm
        have h1 : specStyleScore text b = pb.2 := by
          rw [← hpbfst]
          exact hpb_spec.2.1.symm
        have h2 : specStyleScore text a = ea.2.2 := by
          rw [← hea_fst]
          exact hea_spec.2.1.symm
        rw [h1, h2, ← heb_snd]
        exact hle
    · have hbthree := hb
      have hchar := styleScores_lookup text b hbthree
      have hnone : (styleScores text).lookup b = none :=
        lookup_none_of_not_mem_keys _ b hbkeys
      rw [hnone] at hchar
      by_cases hzero : specStyleScore text b = 0
      · rw [hzero]
        exact Nat.zero_le _
      · rw [if_neg hzero] at hchar
        cases hchar

theorem tokensAux_spec :
    ∀ (fuel : Nat) (pw : Bool) (l : List Char), l.length ≤ fuel →
      ∀ w ∈ tokensAux fuel pw l,
        w ≠ [] ∧ (∀ c ∈ w, isClassChar c = true) ∧
          ∃ pre suf, l = pre ++ w ++ suf ∧
            (pre = [] → pw = false) ∧
            (∀ c, pre.getLast? = some c → isWordChar c = false) ∧
            (∀ c, suf.head? = some c → isWordChar c = false) := by
  intro fuel
  induction fuel with
  | zero =>
    intro pw l hl w hw
    have hnil : l = [] := List.length_eq_zero.mp (Nat.le_zero.mp hl)
    subst hnil
    simp [tokensAux] at hw
  | succ fuel ih =>
    intro pw l hl w hw
    rcases l with _ | ⟨c, cs⟩
    · simp [tokensAux] at hw
    · have hcs : cs.length ≤ fuel := by
        simp only [List.length_cons] at hl
        omega
      have hrest : (cs.dropWhile isClassChar).length ≤ fuel :=
        le_trans (List.dropWhile_suffix isClassChar).length_le hcs
      rw [tokensAux] at hw
      by_cases hcc : isClassChar c = true
      · rw [if_pos hcc] at hw
        rcases List.mem_append.mp hw with hw1 | hw2
        · rcases hcond : (!pw &&
              (match (cs.dropWhile isClassChar).head? with
               | none => true
               | some n => !isWordChar n) : Bool) with _ | _
          · rw [hcond] at hw1
            simp at hw1
          · rw [hcond] at hw1
            simp only [if_true, List.mem_singleton] at hw1
            subst hw1
            have hb := hcond
            simp only [Bool.and_eq_true, Bool.not_eq_true'] at hb
            have hpw : pw = false := hb.1
            refine ⟨by simp, ?_, [], cs.dropWhile isClassChar, ?_, ?_, ?_, ?_⟩
            · intro x hx
              rcases List.mem_cons.mp hx with rfl | hx'
              · exact hcc
              · exact List.mem_takeWhile_imp hx'
            · simp [List.takeWhile_append_dropWhile]
            · intro _
              exact hpw
            · intro x hx
              cases hx
            · intro x hx
              have hb2 := hb.2
              rw [hx] at hb2
              simpa using hb2
        · rcases ih true (cs.dropWhile isClassChar) hrest w hw2 with
            ⟨hne, hcls, pre', suf', heq, hpre0, hlast, hhead⟩
          have hpre' : pre' ≠ [] := by
            intro hcontra
            exact absurd (hpre0 hcontra) (by simp)
          refine ⟨hne, hcls, (c :: cs.takeWhile isClassChar) ++ pre', suf',
            ?_, ?_, ?_, hhead⟩
          · conv_lhs => rw [show (c :: cs) = (c :: cs.takeWhile isClassChar) ++
              cs.dropWhile isClassChar from by
                simp [List.takeWhile_append_dropWhile]]
            rw [heq]
            simp [List.append_assoc]
          · intro hcontra
            exact absurd hcontra (by simp)
          · intro x hx
            rw [List.getLast?_append_of_ne_nil _ hpre'] at hx
            exact hlast x hx
      · rw [if_neg hcc] at hw
        rcases ih (isWordChar c) cs hcs w hw with
          ⟨hne, hcls, pre', suf', heq, hpre0, hlast, hhead⟩
        refine ⟨hne, hcls, c :: pre', suf', ?_, ?_, ?_, hhead⟩
        · rw [show (c :: pre') ++ w ++ suf' = c :: (pre' ++ w ++ suf') from by
            simp [List.append_assoc], ← heq]
        · intro hcontra
          cases hcontra
        · intro x hx
          rcases hpre'nil : pre' with _ | ⟨q, qs⟩
          · rw [hpre'nil] at hx
            simp only [List.getLast?_singleton, Option.some.injEq] at hx
            subst hx
            exact hpre0 hpre'nil
          · rw [hpre'nil, List.getLast?_cons_cons] at hx
            apply hlast x
            rw [hpre'nil]
            exact hx

/-- Every lowercase letter of the claim wording is a regex word
character. -/
theorem isLowerLetter_isWordChar (c : Char) (h : isLowerLetter c = true) :
    isWordChar c = true := by
  unfold isLowerLetter at h
  unfold isWordChar
  simp only [Bool.or_eq_true] at h ⊢
  rcases h with h1 | h2
  · exact Or.inl (Or.inl (Or.inl (Or.inl (Or.inl (Or.inl h1)))))
  · exact Or.inr h2

/-- Every token of `re.findall` on the keyword pattern is a maximal run of
lowercase letters of the scanned text. -/
theorem findallWords_maximalRun (s w : List Char)
    (hw : w ∈ findallWords s) : IsMaximalLowerRun s w := by
  rcases tokensAux_spec s.length false s (le_refl _) w hw with
    ⟨hne, hcls, pre, suf, heq, _, hlast, hhead⟩
  refine ⟨hne, ?_, pre, suf, heq, ?_, ?_⟩
  · intro c hc
    unfold isLowerLetter
    simp [hcls c hc]
  · intro c hc
    have hnw := hlast c hc
    cases hll : isLowerLetter c
    · rfl
    · rw [isLowerLetter_isWordChar c hll] at hnw
      simp at hnw
  · intro c hc
    have hnw := hhead c hc
    cases hll : isLowerLetter c
    · rfl
    · rw [isLowerLetter_isWordChar c hll] at hnw
      simp at hnw

theorem firstSeenAux_subset [DecidableEq α] (l : List α) :
    ∀ seen : List α, ∀ a ∈ firstSeenAux seen l, a ∈ l := by
  induction l with
  | nil => intro seen a ha; simp [firstSeenAux] at ha
  | cons b l ih =>
    intro seen a ha
    unfold firstSeenAux at ha
    by_cases hb : b ∈ seen
    · rw [if_pos hb] at ha
      exact List.mem_cons_of_mem b (ih seen a ha)
    · rw [if_neg hb] at ha
      rcases List.mem_cons.mp ha with rfl | ha'
      · exact List.mem_cons_self a l
      · exact List.mem_cons_of_mem b (ih (b :: seen) a ha')

theorem firstSeenAux_not_mem_seen [DecidableEq α] (l : List α) :
    ∀ seen : List α, ∀ a ∈ firstSeenAux seen l, a ∉ seen := by
  induction l with
  | nil => intro seen a ha; simp [firstSeenAux] at ha
  | cons b l ih =>
    intro seen a ha
    unfold firstSeenAux at ha
    by_cases hb : b ∈ seen
    · rw [if_pos hb] at ha
      exact ih seen a ha
    · rw [if_neg hb] at ha
      rcases List.mem_cons.mp ha with rfl | ha'
      · exact hb
      · intro hcontra
        exact ih (b :: seen) a ha' (List.mem_cons_of_mem b hcontra)

theorem firstSeenAux_nodup [DecidableEq α] (l : List α) :
    ∀ seen : List α, (firstSeenAux seen l).Nodup := by
  induction l with
  | nil => intro seen; simp [firstSeenAux]
  | cons b l ih =>
    intro seen
    unfold firstSeenAux
    by_cases hb : b ∈ seen
    · rw [if_pos hb]
      exact ih seen
    · rw [if_neg hb]
      refine List.nodup_cons.mpr ⟨?_, ih (b :: seen)⟩
      intro hcontra
      exact firstSeenAux_not_mem_seen l (b :: seen) b hcontra
        (List.mem_cons_self b seen)

theorem firstSeen_subset [DecidableEq α] (l : List α) :
    ∀ a ∈ firstSeen l, a ∈ l :=
  firstSeenAux_subset l []

theorem firstSeen_nodup [DecidableEq α] (l : List α) :
    (firstSeen l).Nodup :=
  firstSeenAux_nodup l []

/-- Membership chain: a key of `most_common(10)` is an element of the
counted list. -/
theorem mostCommon10_subset (ws : List (List Char)) :
    ∀ w ∈ mostCommon10 ws, w ∈ ws := by
  intro w hw
  unfold mostCommon10 at hw
  have h1 : w ∈ (firstSeen ws).insertionSort (mcRel ws) :=
    List.mem_of_mem_take hw
  have h2 : w ∈ firstSeen ws :=
    (List.perm_insertionSort (mcRel ws) (firstSeen ws)).mem_iff.mp h1
  exact firstSeen_subset ws w h2

theorem mostCommon10_nodup (ws : List (List Char)) :
    (mostCommon10 ws).Nodup := by
  unfold mostCommon10
  exact List.Nodup.sublist (List.take_sublist 10 _)
    (((List.perm_insertionSort (mcRel ws) (firstSeen ws)).symm).nodup
      (firstSeen_nodup ws))

theorem mostCommon10_pairwise (ws : List (List Char)) :
    (mostCommon10 ws).Pairwise (mcRel ws) := by
  unfold mostCommon10
  have hs : ((firstSeen ws).insertionSort (mcRel ws)).Pairwise (mcRel ws) :=
    List.sorted_insertionSort (mcRel ws) (firstSeen ws)
  exact hs.sublist (List.take_sublist 10 _)

theorem specKeywordScore_visual (text : List Char) :
    specKeywordScore text strVisual =
      visualKeywords.countP (fun k => occurs k (text.map pyLower)) := rfl

theorem specKeywordScore_auditory (text : List Char) :
    specKeywordScore text strAuditory =
      auditoryKeywords.countP (fun k => occurs k (text.map pyLower)) := rfl

theorem specKeywordScore_practical (text : List Char) :
    specKeywordScore text strPractical =
      practicalKeywords.countP (fun k => occurs k (text.map pyLower)) := rfl

theorem decide_countP_pos_eq_any (f : List Char → Bool)
    (kws : List (List Char)) :
    decide (0 < kws.countP f) = kws.any f := by
  cases h : kws.any f
  · rw [countP_zero_of_not_any h]
    rfl
  · exact decide_eq_true (countP_pos_of_any h)

theorem contains_eq_decide_mem (l : List (List Char)) (s : List Char) :
    l.contains s = decide (s ∈ l) := by
  rw [show l.contains s = l.elem s from rfl, List.elem_eq_mem]

theorem mem_specBaseOrder (text : List Char) (s : List Char) :
    s ∈ specBaseOrder text ↔
      s ∈ [strVisual, strAuditory, strPractical] ∧
        0 < specKeywordScore text s := by
  unfold specBaseOrder
  rw [List.mem_filter]
  simp

theorem specBaseOrder_nodup (text : List Char) :
    (specBaseOrder text).Nodup := by
  unfold specBaseOrder
  exact List.Nodup.filter _ (by decide)

theorem kw_zero_of_practical_not_base (text : List Char)
    (h : strPractical ∉ specBaseOrder text) :
    specKeywordScore text strPractical = 0 := by
  by_contra hne
  exact h ((mem_specBaseOrder text strPractical).mpr
    ⟨by simp, Nat.pos_of_ne_zero hne⟩)

theorem kw_zero_of_visual_not_base (text : List Char)
    (h : strVisual ∉ specBaseOrder text) :
    specKeywordScore text strVisual = 0 := by
  by_contra hne
  exact h ((mem_specBaseOrder text strVisual).mpr
    ⟨by simp, Nat.pos_of_ne_zero hne⟩)

theorem specCodeOrder_nodup (text : List Char) :
    (specCodeOrder text).Nodup := by
  unfold specCodeOrder
  by_cases h : (codeMarkerCond text &&
      !((specBaseOrder text).contains strPractical)) = true
  · rw [if_pos h]
    have hp : strPractical ∉ specBaseOrder text := by
      have h2 := (Bool.and_eq_true _ _ ▸ h).2
      rw [contains_eq_decide_mem] at h2
      intro hcontra
      rw [decide_eq_true hcontra] at h2
      simp at h2
    rw [List.nodup_append]
    exact ⟨specBaseOrder_nodup text, by simp,
      by intro x hx hx2; simp only [List.mem_singleton] at hx2;
         exact hp (hx2 ▸ hx)⟩
  · rw [if_neg h]
    exact specBaseOrder_nodup text

theorem mem_specCodeOrder_visual (text : List Char) :
    strVisual ∈ specCodeOrder text ↔ strVisual ∈ specBaseOrder text := by
  unfold specCodeOrder
  by_cases h : (codeMarkerCond text &&
      !((specBaseOrder text).contains strPractical)) = true
  · rw [if_pos h, List.mem_append]
    constructor
    · intro hm
      rcases hm with hm | hm
      · exact hm
      · simp only [List.mem_singleton] at hm
        exact absurd hm (by decide)
    · exact Or.inl
  · rw [if_neg h]

theorem bump_map_mem (f : List Char → Nat) (k : List Char) (n : Nat) :
    ∀ l : List (List Char), k ∈ l → l.Nodup →
      bump (l.map (fun s => (s, f s))) k n =
        l.map (fun s => (s, if s = k then f s + n else f s)) := by
  intro l
  induction l with
  | nil =>
    intro hk _
    cases hk
  | cons a t ih =>
    intro hk hnd
    rcases List.mem_cons.mp hk with rfl | hkt
    · rw [List.map_cons,
        show bump ((k, f k) :: t.map (fun s => (s, f s))) k n =
          (k, f k + n) :: t.map (fun s => (s, f s)) from by simp [bump],
        List.map_cons, if_pos rfl]
      congr 1
      apply List.map_congr_left
      intro s hs
      have hsa : ¬ s = k := fun h => (List.nodup_cons.mp hnd).1 (h ▸ hs)
      rw [if_neg hsa]
    · have hak : ¬ a = k := fun h => (List.nodup_cons.mp hnd).1 (h ▸ hkt)
      rw [List.map_cons,
        show bump ((a, f a) :: t.map (fun s => (s, f s))) k n =
          (a, f a) :: bump (t.map (fun s => (s, f s))) k n from by
            simp [bump, hak],
        ih hkt (List.nodup_cons.mp hnd).2, List.map_cons, if_neg hak]

theorem styleScores_base_spec (text : List Char) :
    (styleLexicon.filter
        (fun p => p.2.any (fun k => occurs k (text.map pyLower)))).map
      (fun p => (p.1, p.2.countP (fun k => occurs k (text.map pyLower)))) =
    (specBaseOrder text).map (fun s => (s, specKeywordScore text s)) := by
  have hv := specKeywordScore_visual text
  have ha := specKeywordScore_auditory text
  have hp := specKeywordScore_practical text
  unfold specBaseOrder
  rw [show styleLexicon = [(strVisual, visualKeywords),
      (strAuditory, auditoryKeywords), (strPractical, practicalKeywords)]
    from rfl]
  simp only [List.filter_cons, List.filter_nil, hv, ha, hp,
    decide_countP_pos_eq_any]
  by_cases h1 : visualKeywords.any (fun k => occurs k (text.map pyLower)) = true <;>
    by_cases h2 : auditoryKeywords.any (fun k => occurs k (text.map pyLower)) = true <;>
      by_cases h3 : practicalKeywords.any (fun k => occurs k (text.map pyLower)) = true <;>
        simp [h1, h2, h3, hv, ha, hp]

theorem specCodeOrder_map (text : List Char) :
    (if codeMarkerCond text then
        bump ((specBaseOrder text).map
          (fun s => (s, specKeywordScore text s))) strPractical 5
      else (specBaseOrder text).map (fun s => (s, specKeywordScore text s))) =
      (specCodeOrder text).map (fun s => (s, specKeywordScore text s +
        if s = strPractical ∧ codeMarkerCond text then 5 else 0)) := by
  by_cases hc : codeMarkerCond text = true
  · rw [if_pos hc]
    by_cases hpmem : strPractical ∈ specBaseOrder text
    · have hcode : specCodeOrder text = specBaseOrder text := by
        unfold specCodeOrder
        rw [if_neg ?_]
        rw [contains_eq_decide_mem, decide_eq_true hpmem]
        simp
      rw [hcode, bump_map_mem _ _ _ _ hpmem (specBaseOrder_nodup text)]
      apply List.map_congr_left
      intro s hs
      by_cases hsp : s = strPractical
      · subst hsp
        simp [hc]
      · simp [hsp]
    · have hcode : specCodeOrder text =
          specBaseOrder text ++ [strPractical] := by
        unfold specCodeOrder
        rw [if_pos ?_]
        rw [hc, contains_eq_decide_mem, decide_eq_false hpmem]
        rfl
      have hkeys : ((specBaseOrder text).map
          (fun s => (s, specKeywordScore text s))).map Prod.fst =
          specBaseOrder text := by
        rw [List.map_map,
          show Prod.fst ∘ (fun s => (s, specKeywordScore text s)) = id
            from rfl,
          List.map_id]
      rw [bump_absent _ _ _ (by rw [hkeys]; exact hpmem), hcode,
        List.map_append]
      congr 1
      · apply List.map_congr_left
        intro s hs
        have hsp : ¬ s = strPractical := fun h => hpmem (h ▸ hs)
        simp [hsp]
      · rw [List.map_singleton, if_pos ⟨rfl, hc⟩,
          kw_zero_of_practical_not_base text hpmem]
  · rw [if_neg hc]
    have hcode : specCodeOrder text = specBaseOrder text := by
      unfold specCodeOrder
      rw [if_neg ?_]
      intro hcontra
      exact hc (Bool.and_eq_true _ _ ▸ hcontra).1
    rw [hcode]
    apply List.map_congr_left
    intro s hs
    have hcf : codeMarkerCond text = false := Bool.eq_false_iff.mpr hc
    simp [hcf]

theorem specStyleOrder_map (text : List Char) :
    (if styleBulletCond text then
        bump ((specCodeOrder text).map (fun s => (s, specKeywordScore text s +
            if s = strPractical ∧ codeMarkerCond text then 5 else 0)))
          strVisual 3
      else (specCodeOrder text).map (fun s => (s, specKeywordScore text s +
        if s = strPractical ∧ codeMarkerCond text then 5 else 0))) =
      (specStyleOrder text).map (fun s => (s, specStyleScore text s)) := by
  have hdecomp : ∀ s, specStyleScore text s =
      (specKeywordScore text s +
        if s = strPractical ∧ codeMarkerCond text then 5 else 0) +
        (if s = strVisual ∧ styleBulletCond text then 3 else 0) :=
    fun s => rfl
  by_cases hb : styleBulletCond text = true
  · rw [if_pos hb]
    by_cases hvmem : strVisual ∈ specCodeOrder text
    · have horder : specStyleOrder text = specCodeOrder text := by
        unfold specStyleOrder
        rw [if_neg ?_]
        rw [contains_eq_decide_mem, decide_eq_true hvmem]
        simp
      rw [horder, bump_map_mem _ _ _ _ hvmem (specCodeOrder_nodup text)]
      apply List.map_congr_left
      intro s hs
      rw [hdecomp s]
      by_cases hsv : s = strVisual
      · subst hsv
        have hvp : ¬ (strVisual = strPractical) := by decide
        simp [hb, hvp]
      · simp [hsv]
    · have horder : specStyleOrder text =
          specCodeOrder text ++ [strVisual] := by
        unfold specStyleOrder
        rw [if_pos ?_]
        rw [hb, contains_eq_decide_mem, decide_eq_false hvmem]
        rfl
      have hkeys : ((specCodeOrder text).map
          (fun s => (s, specKeywordScore text s +
            if s = strPractical ∧ codeMarkerCond text then 5 else 0))).map
          Prod.fst = specCodeOrder text := by
        rw [List.map_map,
          show Prod.fst ∘ (fun s => (s, specKeywordScore text s +
            if s = strPractical ∧ codeMarkerCond text then 5 else 0)) = id
            from rfl,
          List.map_id]
      rw [bump_absent _ _ _ (by rw [hkeys]; exact hvmem), horder,
        List.map_append]
      congr 1
      · apply List.map_congr_left
        intro s hs
        rw [hdecomp s]
        have hsv : ¬ s = strVisual := fun h => hvmem (h ▸ hs)
        simp [hsv]
      · rw [List.map_singleton, hdecomp strVisual]
        have hvp : ¬ (strVisual = strPractical) := by decide
        have hkw0 := kw_zero_of_visual_not_base text
          (fun hcontra => hvmem
            ((mem_specCodeOrder_visual text).mpr hcontra))
        simp [hb, hvp, hkw0]
  · rw [if_neg hb]
    have horder : specStyleOrder text = specCodeOrder text := by
      unfold specStyleOrder
      rw [if_neg ?_]
      intro hcontra
      exact hb (Bool.and_eq_true _ _ ▸ hcontra).1
    rw [horder]
    apply List.map_congr_left
    intro s hs
    rw [hdecomp s]
    have hbf : styleBulletCond text = false := Bool.eq_false_iff.mpr hb
    simp [hbf]

theorem styleScores_eq_spec (text : List Char) :
    styleScores text =
      (specStyleOrder text).map (fun s => (s, specStyleScore text s)) := by
  unfold styleScores
  dsimp only
  rw [styleScores_m0 text, styleScores_base_spec text, specCodeOrder_map text,
    specStyleOrder_map text]

theorem specStyleOrder_nodup (text : List Char) :
    (specStyleOrder text).Nodup := by
  unfold specStyleOrder
  by_cases h : (styleBulletCond text &&
      !((specCodeOrder text).contains strVisual)) = true
  · rw [if_pos h]
    have hv : strVisual ∉ specCodeOrder text := by
      have h2 := (Bool.and_eq_true _ _ ▸ h).2
      rw [contains_eq_decide_mem] at h2
      intro hcontra
      rw [decide_eq_true hcontra] at h2
      simp at h2
    rw [List.nodup_append]
    refine ⟨specCodeOrder_nodup text, by simp, ?_⟩
    intro x hx hx2
    simp only [List.mem_singleton] at hx2
    exact hv (hx2 ▸ hx)
  · rw [if_neg h]
    exact specCodeOrder_nodup text

theorem indexOf_of_get_eq_some :
    ∀ (l : List (List Char)), l.Nodup →
      ∀ (i : ℕ) (a : List Char), l.get? i = some a → l.indexOf a = i := by
  intro l
  induction l with
  | nil =>
    intro _ i a h
    simp at h
  | cons b t ih =>
    intro hnd i a h
    cases i with
    | zero =>
      have hba : b = a := by simpa using h
      subst hba
      rw [List.indexOf_cons]
      simp
    | succ n =>
      have h2 : t.get? n = some a := by simpa using h
      have hba : (b == a) = false := by
        apply beq_eq_false_iff_ne.mpr
        intro hcontra
        subst hcontra
        exact (List.nodup_cons.mp hnd).1 (List.get?_mem h2)
      rw [List.indexOf_cons, hba, cond_false,
        ih (List.nodup_cons.mp hnd).2 n a h2]

theorem suggest_eq_suggestSpec (text : List Char) :
    suggest_learning_style text = suggestSpec text := by
  have hss := styleScores_eq_spec text
  by_cases hnil : specStyleOrder text = []
  · have h0 : styleScores text = [] := by
      rw [hss, hnil]
      rfl
    rw [suggest_of_styleScores_nil h0]
    unfold suggestSpec
    rw [if_pos hnil]
  · unfold suggestSpec
    rw [if_neg hnil]
    unfold suggest_learning_style
    have hlen : (sortedStyles (styleScores text)).length =
        (styleScores text).length := by
      simp [sortedStyles]
    have hne : styleScores text ≠ [] := by
      rw [hss]
      intro hcontra
      exact hnil (List.map_eq_nil.mp hcontra)
    have hcond : ¬ ((sortedStyles (styleScores text)).isEmpty = true) := by
      simp only [List.isEmpty_iff]
      intro hcontra
      apply hne
      rw [hcontra] at hlen
      exact List.length_eq_zero.mp hlen.symm
    rw [if_neg hcond]
    unfold sortedStyles
    rw [hss]
    have hnd : (specStyleOrder text).Nodup := specStyleOrder_nodup text
    have hcondition : ∀ a ∈ (((specStyleOrder text).map
          (fun s => (s, specStyleScore text s))).enum),
        ∀ b ∈ (((specStyleOrder text).map
          (fun s => (s, specStyleScore text s))).enum),
        styleRel a b ↔ styleOrdRel text a.2.1 b.2.1 := by
      intro a ha b hb
      obtain ⟨ia, a2⟩ := a
      obtain ⟨ib, b2⟩ := b
      have ha1 := List.mem_enum_iff_get?.mp ha
      have hb1 := List.mem_enum_iff_get?.mp hb
      rw [List.get?_map] at ha1 hb1
      rcases hax : (specStyleOrder text).get? ia with _ | sa
      · rw [hax] at ha1
        simp at ha1
      rcases hbx : (specStyleOrder text).get? ib with _ | sb
      · rw [hbx] at hb1
        simp at hb1
      rw [hax] at ha1
      rw [hbx] at hb1
      have ha2 : (sa, specStyleScore text sa) = a2 := Option.some.inj ha1
      have hb2 : (sb, specStyleScore text sb) = b2 := Option.some.inj hb1
      subst ha2
      subst hb2
      have hia : (specStyleOrder text).indexOf sa = ia :=
        indexOf_of_get_eq_some _ hnd _ _ hax
      have hib : (specStyleOrder text).indexOf sb = ib :=
        indexOf_of_get_eq_some _ hnd _ _ hbx
      unfold styleRel styleOrdRel
      rw [hia, hib]
    have hmap : ((((specStyleOrder text).map
          (fun s => (s, specStyleScore text s))).enum).map
        (fun p => p.2.1)) = specStyleOrder text := by
      rw [show (fun p : ℕ × (List Char × ℕ) => p.2.1) =
          (Prod.fst ∘ Prod.snd) from rfl, ← List.map_map,
        List.enum_map_snd, List.map_map,
        show Prod.fst ∘ (fun s => (s, specStyleScore text s)) = id from rfl,
        List.map_id]
    have hkey := List.map_insertionSort styleRel (styleOrdRel text)
      (fun p => p.2.1)
      (((specStyleOrder text).map (fun s => (s, specStyleScore text s))).enum)
      hcondition
    rw [hmap] at hkey
    rw [List.map_take, List.map_map,
      show ((fun p : List Char × ℕ => p.1) ∘
          (fun p : ℕ × (List Char × ℕ) => p.2)) =
        (fun p : ℕ × (List Char × ℕ) => p.2.1) from rfl,
      hkey]

/-! ### Claims -/

/-- C1: for every text, `detect_subject` scores each subject by the sum of
substring occurrence counts of its keywords in the lowercased text and
returns the category with the maximum total, ties going to the category
coming first in the fixed lexicon order, with `'общий'` when no keyword of
any category occurs; on the example text with the Russian words for
function, code and algorithm five times each it returns the programming
category, whose score is 15. -/
theorem C1_detect_subject_matches_spec :
    (∀ text : List Char, detect_subject text = detectSubjectSpec text) ∧
      detect_subject exSubjectText = ("программирование").toList ∧
      subjectScore (exSubjectText.map pyLower)
        ((["код", "функция", "переменная", "класс", "объект", "алгоритм",
           "программа"]).map String.toList) = 15 := by
  refine ⟨?_, by decide, by decide⟩
  intro text
  unfold detect_subject detectSubjectSpec
  dsimp only
  rw [subject_scores_eq (text.map pyLower) subjectLexicon []
      (by intro q hq; simp) (by decide), List.nil_append,
    List.filter_congr
      (fun p _ => any_occurs_eq (text.map pyLower) p.2),
    argmaxFirst_map (fun q : List Char × Nat => q.2)
      (fun p : List Char × List (List Char) =>
        (p.1, subjectScore (text.map pyLower) p.2))]
  by_cases hall : subjectLexicon.all
      (fun p => subjectScore (text.map pyLower) p.2 == 0) = true
  · have hfil : subjectLexicon.filter
        (fun p => decide (0 < subjectScore (text.map pyLower) p.2)) = [] := by
      rw [List.filter_eq_nil_iff]
      intro p hp
      have hz := List.all_eq_true.mp hall p hp
      simp only [beq_iff_eq] at hz
      simp [hz]
    rw [hfil, if_pos hall]
    rfl
  · rw [if_neg hall]
    have hex : ∃ p ∈ subjectLexicon,
        0 < subjectScore (text.map pyLower) p.2 := by
      by_contra hne
      push_neg at hne
      apply hall
      rw [List.all_eq_true]
      intro p hp
      have := hne p hp
      simp only [beq_iff_eq]
      omega
    rw [argmaxFirst_filter_pos
      (fun p => subjectScore (text.map pyLower) p.2) subjectLexicon hex]
    rcases har : argmaxFirst
        (fun p => subjectScore (text.map pyLower) p.2) subjectLexicon with _ | p
    · rw [har]
      rfl
    · rw [har]
      rfl

/-- C2: for every text whose non-blank period-split sentence list and
whitespace-split word list are both non-empty, `calculate_readability`
returns `206.835 − 1.015 × (word_count / sentence_count) − 84.6 ×
((sum of word lengths / word_count) / 5)`, clamped to `[0, 100]` and then
rounded to one decimal place; if either list is empty it returns the
neutral default 50. -/
theorem C2_calculate_readability_matches_spec (text : List Char) :
    calculate_readability text = readabilitySpec text := by
  rfl

/-- C3: for every text, `calculate_engagement_score` equals the clamp to
`[0, 100]` of 50, plus 2 per distinct occurring engaging word, plus 10 on
an example trigger, plus 3 per `?` character, plus 2 per bullet-pattern
match, minus 10 when the average words-per-sentence over the raw period
split exceeds 25; and the four-question example text scores 62. -/
theorem C3_calculate_engagement_score_matches_spec :
    (∀ text : List Char, calculate_engagement_score text = engagementSpec text) ∧
      calculate_engagement_score exQuestionText = 62 := by
  constructor
  · intro text
    unfold calculate_engagement_score engagementSpec
    have hs : (splitDot text).isEmpty = false := by
      simp [List.isEmpty_iff, splitDot_ne_nil]
    rw [countOcc_singleton]
    by_cases hex : (occurs (("например").toList) (text.map pyLower) ||
        occurs (("пример").toList) (text.map pyLower)) = true <;>
      by_cases havg : 25 < avgWordsPerSentence text <;>
        simp only [hs, hex, havg, Bool.false_eq_true, ite_true, ite_false,
          eq_self_iff_true, not_false_iff, if_true, if_false] <;>
      ring_nf
  · have h6 : splitDot exQuestionText = [exQuestionText] := by decide
    have h7 : avgWordsPerSentence exQuestionText = 4 := by
      unfold avgWordsPerSentence
      rw [h6]
      have h8 : (pySplit exQuestionText).length = 4 := by decide
      simp [h8]
    have h1 : countOcc (['?']) exQuestionText = 4 := by decide
    have h2 : engagingWords.countP
        (fun w => occurs w (exQuestionText.map pyLower)) = 0 := by decide
    have h3 : bulletCount (['-', '*', '•']) exQuestionText = 0 := by decide
    have h4 : occurs (("например").toList) (exQuestionText.map pyLower) = false := by
      decide
    have h5 : occurs (("пример").toList) (exQuestionText.map pyLower) = false := by
      decide
    unfold calculate_engagement_score
    dsimp only
    rw [h1, h2, h3, h4, h5, h6, h7]
    norm_num

theorem round1_mem_Icc {q : ℚ} (h0 : 0 ≤ q) (h1 : q ≤ 100) :
    0 ≤ round1 q ∧ round1 q ≤ 100 := by
  unfold round1
  constructor
  · apply div_nonneg _ (by norm_num)
    have hfl : (0 : ℤ) ≤ ⌊q * 10 + 1 / 2⌋ := by
      apply Int.le_floor.mpr
      push_cast
      linarith
    exact_mod_cast hfl
  · rw [div_le_iff₀ (by norm_num : (0 : ℚ) < 10)]
    have hle : ((⌊q * 10 + 1 / 2⌋ : ℤ) : ℚ) ≤ q * 10 + 1 / 2 := Int.floor_le _
    have hcast : ((⌊q * 10 + 1 / 2⌋ : ℤ) : ℚ) < 1001 := by linarith
    have hint : ⌊q * 10 + 1 / 2⌋ < 1001 := by exact_mod_cast hcast
    have : ((⌊q * 10 + 1 / 2⌋ : ℤ) : ℚ) ≤ 1000 := by
      have : ⌊q * 10 + 1 / 2⌋ ≤ 1000 := by omega
      exact_mod_cast this
    linarith

/-- C6: for all non-empty text, `calculate_readability` and
`calculate_engagement_score` return values within `[0, 100]`. -/
theorem C6_scores_within_bounds (text : List Char) (h : text ≠ []) :
    (0 ≤ calculate_readability text ∧ calculate_readability text ≤ 100) ∧
      (0 ≤ calculate_engagement_score text ∧
        calculate_engagement_score text ≤ 100) := by
  clear h
  constructor
  · unfold calculate_readability
    by_cases hempty : ((readabilitySentences text).isEmpty ||
        (pySplit text).isEmpty) = true
    · rw [if_pos hempty]
      norm_num
    · rw [if_neg hempty]
      exact round1_mem_Icc (le_max_left _ _)
        (max_le (by norm_num) (min_le_left _ _))
  · unfold calculate_engagement_score
    exact ⟨le_max_left _ _, max_le (by norm_num) (min_le_left _ _)⟩

/-- C6 witness at a concrete non-empty text. -/
theorem C6_scores_within_bounds_witness :
    (0 ≤ calculate_readability (("a").toList) ∧
        calculate_readability (("a").toList) ≤ 100) ∧
      (0 ≤ calculate_engagement_score (("a").toList) ∧
        calculate_engagement_score (("a").toList) ≤ 100) :=
  C6_scores_within_bounds (("a").toList) (by decide)

/-- C9: in every report of `analyze_comprehensive` the difficulty
interpretation is computed from the readability score, and its level is
`'Лёгкий'` exactly when the score is at least 70, `'Средний'` exactly when
it is at least 50 and below 70, and `'Сложный'` exactly when it is below
50 — the boundaries 50 and 70 classify upward. -/
theorem C9_difficulty_thresholds :
    (∀ text : List Char,
      (analyze_comprehensive text).difficulty_interpretation =
        interpret_readability ((analyze_comprehensive text).readability_score)) ∧
    (∀ q : ℚ,
      ((interpret_readability q).level = ("Лёгкий").toList ↔ 70 ≤ q) ∧
      ((interpret_readability q).level = ("Средний").toList ↔ 50 ≤ q ∧ q < 70) ∧
      ((interpret_readability q).level = ("Сложный").toList ↔ q < 50)) := by
  constructor
  · intro text
    rfl
  · intro q
    have hLS : (("Лёгкий").toList : List Char) ≠ ("Средний").toList := by decide
    have hLH : (("Лёгкий").toList : List Char) ≠ ("Сложный").toList := by decide
    have hSH : (("Средний").toList : List Char) ≠ ("Сложный").toList := by decide
    unfold interpret_readability
    by_cases h70 : 70 ≤ q
    · rw [if_pos h70]
      exact ⟨⟨fun _ => h70, fun _ => rfl⟩,
        ⟨fun h => absurd h hLS, fun h => absurd h70 (not_le.mpr h.2)⟩,
        ⟨fun h => absurd h hLH,
         fun hlt => absurd h70 (not_le.mpr (lt_of_lt_of_le hlt (by norm_num)))⟩⟩
    · by_cases h50 : 50 ≤ q
      · rw [if_neg h70, if_pos h50]
        exact ⟨⟨fun h => absurd h.symm hLS, fun h => absurd h h70⟩,
          ⟨fun _ => ⟨h50, not_le.mp h70⟩, fun _ => rfl⟩,
          ⟨fun h => absurd h hSH, fun hlt => absurd h50 (not_le.mpr hlt)⟩⟩
      · rw [if_neg h70, if_neg h50]
        exact ⟨⟨fun h => absurd h.symm hLH,
            fun h => absurd (le_trans (by norm_num) h) h50⟩,
          ⟨fun h => absurd h.symm hSH, fun h => absurd h.1 h50⟩,
          ⟨fun _ => not_le.mp h50, fun _ => rfl⟩⟩

/-- C8: for every text and keyword list, `generate_flashcards` returns at
most 5 cards, and its output is exactly one card per keyword among the
first five that occurs case-insensitively in some non-empty period-split
sentence, with the first such sentence as the back and the fixed question
as the front; keywords contained in no sentence produce no card. -/
theorem C8_generate_flashcards_matches_spec (text : List Char)
    (keywords : List (List Char)) :
    generate_flashcards text keywords = flashcardsSpec text keywords ∧
      (generate_flashcards text keywords).length ≤ 5 := by
  have heq : generate_flashcards text keywords = flashcardsSpec text keywords := by
    unfold generate_flashcards flashcardsSpec
    simpa using generate_flashcards_foldl text (keywords.take 5) []
  refine ⟨heq, ?_⟩
  rw [heq]
  unfold flashcardsSpec
  calc ((keywords.take 5).filterMap _).length ≤ (keywords.take 5).length :=
        List.length_filterMap_le _ _
    _ ≤ 5 := List.length_take_le _ _

theorem avgWordsPerSentence_nil : avgWordsPerSentence ([] : List Char) = 0 := by
  unfold avgWordsPerSentence
  have h6 : splitDot ([] : List Char) = [[]] := by decide
  have h8 : (pySplit ([] : List Char)).length = 0 := by decide
  rw [h6]
  simp [h8]

theorem calculate_engagement_score_nil :
    calculate_engagement_score ([] : List Char) = 50 := by
  have h1 : countOcc (['?']) ([] : List Char) = 0 := by decide
  have h2 : engagingWords.countP
      (fun w => occurs w (([] : List Char).map pyLower)) = 0 := by decide
  have h3 : bulletCount (['-', '*', '•']) ([] : List Char) = 0 := by decide
  have h4 : occurs (("например").toList) (([] : List Char).map pyLower) = false := by
    decide
  have h5 : occurs (("пример").toList) (([] : List Char).map pyLower) = false := by
    decide
  have h6 : splitDot ([] : List Char) = [[]] := by decide
  unfold calculate_engagement_score
  dsimp only
  rw [h1, h2, h3, h4, h5, h6, avgWordsPerSentence_nil]
  norm_num

/-- C7: the readability average is guarded — an empty sentence or word
list yields the neutral default 50 — and `analyze_comprehensive` applied
to the empty string returns a complete report in which every component
contributes its documented default: readability 50, subject `'общий'`,
empty keyword list, the default style ranking, engagement 50 (the base
adjusted only by its unconditional terms, which all vanish), no
flashcards, the generic prerequisites, and a zero average sentence
length. -/
theorem C7_safe_defaults :
    (∀ text : List Char,
      readabilitySentences text = [] ∨ pySplit text = [] →
        calculate_readability text = 50) ∧
    (analyze_comprehensive []).readability_score = 50 ∧
    (analyze_comprehensive []).subject = strGeneral ∧
    (analyze_comprehensive []).keywords = [] ∧
    (analyze_comprehensive []).learning_styles = defaultStyles ∧
    (analyze_comprehensive []).engagement_score = 50 ∧
    (analyze_comprehensive []).flashcards = [] ∧
    (analyze_comprehensive []).prerequisites =
      (["Базовая грамотность", "Желание учиться"]).map String.toList ∧
    (analyze_comprehensive []).basic_stats.avg_sentence_length = 0 := by
  refine ⟨?_, ?_, ?_, ?_, ?_, ?_, ?_, ?_, ?_⟩
  · intro text h
    unfold calculate_readability
    rcases h with h | h <;> rw [h] <;> simp
  · have h : readabilitySentences ([] : List Char) = [] := by decide
    show calculate_readability [] = 50
    unfold calculate_readability
    rw [h]
    simp
  · decide
  · decide
  · decide
  · exact calculate_engagement_score_nil
  · decide
  · decide
  · have h : analyzeWords ([] : List Char) = [] := by decide
    have h2 : readabilitySentences ([] : List Char) = [] := by decide
    show ((analyzeWords ([] : List Char)).length : ℚ) /
        (max (readabilitySentences ([] : List Char)).length 1 : ℚ) = 0
    rw [h, h2]
    simp

/-- C7 witness: a text whose period split contains no non-blank sentence,
so the readability guard fires. -/
theorem C7_safe_defaults_witness : calculate_readability ((".").toList) = 50 :=
  C7_safe_defaults.1 ((".").toList) (Or.inl (by decide))

/-- C4 counterexample: on the empty text no keyword and no bonus fires, and
`suggest_learning_style` returns the three-element default list, so the
claim's "the result never has more than 2 items" is false. -/
theorem C4_counterexample : ¬ ((suggest_learning_style []).length ≤ 2) := by
  decide

/-- C4 (amended): for every text, `suggest_learning_style` scores each
style by 1 per distinct lexicon keyword present in the lowercased text,
plus a bonus of 5 to the practical style on a code/function marker and a
bonus of 3 to the visual style on more than three bullet-pattern matches
(the `lookup` characterisation below); when no keyword and no bonus fires
it returns exactly the three-element default list `[practical, visual,
auditory]`; otherwise it returns at most 2 items, namely the first two
scored styles ranked by descending score with ties broken by the order in
which the styles first received a score (keyword-scored styles in lexicon
order, then the practical style when only the code bonus scores it, then
the visual style when only the bullet bonus scores it) — exactly
`suggestSpec`. -/
theorem C4_suggest_learning_style_amended (text : List Char) :
    (∀ s ∈ [strVisual, strAuditory, strPractical],
      (styleScores text).lookup s =
        if specStyleScore text s = 0 then none
        else some (specStyleScore text s)) ∧
    ((∀ s ∈ [strVisual, strAuditory, strPractical],
        specStyleScore text s = 0) →
      suggest_learning_style text = defaultStyles) ∧
    ((∃ s ∈ [strVisual, strAuditory, strPractical],
        0 < specStyleScore text s) →
      (suggest_learning_style text).length ≤ 2) ∧
    suggest_learning_style text = suggestSpec text := by
  refine ⟨styleScores_lookup text, ?_, ?_, suggest_eq_suggestSpec text⟩
  · intro hall
    exact suggest_of_styleScores_nil ((styleScores_nil_iff text).mpr hall)
  · rintro ⟨s, hs, hpos⟩
    apply suggest_length_le_two
    intro hnil
    have := (styleScores_nil_iff text).mp hnil s hs
    omega

/-- C4 witness: the empty text has all style scores zero and yields the
default list; the bullet-list example text has a positive visual score and
yields at most two styles; and the tie-break example — three practical
keywords against the visual bullet bonus, three points each — returns the
practical style first, in score-insertion order. -/
theorem C4_suggest_learning_style_amended_witness :
    suggest_learning_style [] = defaultStyles ∧
      (suggest_learning_style exBulletText).length ≤ 2 ∧
      suggest_learning_style exTieText = [strPractical, strVisual] :=
  ⟨(C4_suggest_learning_style_amended []).2.1 (by decide),
   (C4_suggest_learning_style_amended exBulletText).2.2.1
     ⟨strVisual, by decide, by decide⟩,
   ((C4_suggest_learning_style_amended exTieText).2.2.2).trans (by decide)⟩

/-- C10: whenever exactly one learning style receives a nonzero score, the
returned ranking is exactly that one style — styles that never scored are
absent from the score dictionary rather than present with score zero. -/
theorem C10_single_scoring_style (text : List Char) (s : List Char)
    (hs : s ∈ [strVisual, strAuditory, strPractical])
    (hpos : 0 < specStyleScore text s)
    (hothers : ∀ s' ∈ [strVisual, strAuditory, strPractical],
      s' ≠ s → specStyleScore text s' = 0) :
    suggest_learning_style text = [s] := by
  have hchar := styleScores_lookup text s hs
  rw [if_neg (by omega)] at hchar
  have hskey : s ∈ (styleScores text).map Prod.fst :=
    mem_keys_of_lookup_some _ s _ hchar
  have hallkeys : ∀ k ∈ (styleScores text).map Prod.fst, k = s := by
    intro k hk
    have hkthree := styleScores_keys_sub text k hk
    by_contra hne
    have hzero := hothers k hkthree hne
    have hchark := styleScores_lookup text k hkthree
    rw [if_pos hzero] at hchark
    rcases lookup_isSome_of_mem_keys _ k hk with ⟨v, hv⟩
    rw [hv] at hchark
    cases hchark
  have hnodup := styleScores_keys_nodup text
  rcases hm : styleScores text with _ | ⟨p, rest⟩
  · rw [hm] at hskey
    cases hskey
  · have hp1 : p.1 = s := by
      apply hallkeys
      rw [hm]
      simp
    have hrest : rest = [] := by
      rcases hrest : rest with _ | ⟨q, rest2⟩
      · rfl
      · exfalso
        have hq1 : q.1 = s := by
          apply hallkeys
          rw [hm, hrest]
          simp
        rw [hm, hrest] at hnodup
        simp only [List.map_cons, List.nodup_cons, List.mem_cons] at hnodup
        exact hnodup.1 (Or.inl (hp1.trans hq1.symm))
    subst hrest
    unfold suggest_learning_style
    rw [hm, show sortedStyles [p] = [p] from rfl]
    simp [hp1]

/-- C10 witness: the bullet-list example text gives only the visual style
a score, and the ranking is exactly that one style. -/
theorem C10_single_scoring_style_witness :
    suggest_learning_style exBulletText = [strVisual] :=
  C10_single_scoring_style exBulletText strVisual (by decide) (by decide)
    (by decide)

/-- **C5.** For every text, the keyword list of `analyze_comprehensive`
has at most 10 entries; every entry is a maximal run of lowercase Cyrillic
or Latin letters of the case-folded text, is at least 4 characters long
and is not a stop word; the entries are pairwise distinct; and they are
ordered by decreasing frequency over the filtered token list, with ties
broken by first-encountered order. -/
theorem C5_keyword_extraction (text : List Char) :
    (analyzeKeywords text).length ≤ 10 ∧
      (∀ w ∈ analyzeKeywords text,
        IsMaximalLowerRun (text.map pyLower) w ∧ 4 ≤ w.length ∧
          w ∉ stopWords) ∧
      (analyzeKeywords text).Nodup ∧
      (analyzeKeywords text).Pairwise (fun a b =>
        (filteredWords text).count b < (filteredWords text).count a ∨
          ((filteredWords text).count a = (filteredWords text).count b ∧
            (filteredWords text).indexOf a ≤
              (filteredWords text).indexOf b)) := by
  refine ⟨?_, ?_, ?_, ?_⟩
  · unfold analyzeKeywords mostCommon10
    exact List.length_take_le 10 _
  · intro w hw
    have hmem : w ∈ filteredWords text := mostCommon10_subset _ w hw
    unfold filteredWords at hmem
    rcases List.mem_filter.mp hmem with ⟨htok, hpred⟩
    simp only [Bool.and_eq_true, Bool.not_eq_true',
      decide_eq_true_eq] at hpred
    refine ⟨findallWords_maximalRun _ w htok, by omega, ?_⟩
    intro hcontra
    have h1 := hpred.1
    rw [show stopWords.contains w = stopWords.elem w from rfl,
      List.elem_eq_mem, decide_eq_true hcontra] at h1
    simp at h1
  · exact mostCommon10_nodup _
  · exact (mostCommon10_pairwise (filteredWords text)).imp (fun h => h)

end AiAnalyzer
